import Mathlib

/-!
# Verification of `probabilistic-collections-rs`

A shallow embedding, in Lean 4, of the parts of the Rust crate
`probabilistic-collections` that the verified claims are about:

* `src/util.rs` — the `HashIter` double-hashing iterator;
* `src/bitstring_vec.rs` — `BitstringVec`, a growable vector of fixed-width
  integer slots packed into 64-bit words;
* `src/bit_vec.rs` — `BitVec`, a growable bit vector packed into bytes with a
  cached popcount;
* `src/quotient.rs` — `QuotientFilter`;
* `src/cuckoo/cuckoo_filter.rs` — `CuckooFilter`;
* `src/count_min_sketch.rs` — `CountMinSketch` with the `CountMinStrategy`.

Machine integers (`u64`, `u8`, `usize`, `i64`) are modelled as `Nat`
(resp. `Int` for `i64`) with explicit reductions `% 2^64`, `% 2^8`, … at
the operations where Rust wrapping semantics matter.  Rust release-mode
semantics (wrap on overflow) is used for arithmetic on counters.
Code that is generic over a `BuildHasher` is embedded as a function
parametrised by explicit hash functions.
-/

set_option maxRecDepth 10000

namespace ProbColl

/-- The `u64` modulus. -/
def U64 : ℕ := 2 ^ 64

/-- The `u8` modulus. -/
def U8 : ℕ := 2 ^ 8

/-! ## `src/util.rs` : `HashIter`

```rust
pub struct HashIter { a: u64, b: u64, c: u64 }
impl Iterator for HashIter {
    fn next(&mut self) -> Option<u64> {
        let ret = self.a;
        self.a = self.a.wrapping_add(self.b);
        self.b = self.b.wrapping_add(self.c);
        self.c += 1;
        Some(ret)
    }
}
```
`DoubleHasher::hash(item)` constructs `HashIter { a: H0(item), b: H1(item), c: 0 }`.
-/

structure HashIter where
  a : ℕ
  b : ℕ
  c : ℕ
  deriving Repr, DecidableEq

namespace HashIter

/-- State transition of `HashIter::next` (the yielded value is the `a` field
of the state before the step).  `c += 1` is a `u64` increment, hence the
reduction mod `2^64`. -/
def step (h : HashIter) : HashIter :=
  { a := (h.a + h.b) % U64
    b := (h.b + h.c) % U64
    c := (h.c + 1) % U64 }

/-- Rust `DoubleHasher::hash`: the initial iterator state for an item with
underlying hashes `a = H0(item)` and `b = H1(item)`. -/
def init (a b : ℕ) : HashIter := { a := a, b := b, c := 0 }

/-- The `i`-th element yielded by the iterator (0-based): the `a` field after
`i` calls of `next`. -/
def nth (h : HashIter) (i : ℕ) : ℕ := (step^[i] h).a

end HashIter

/-! ## `src/bitstring_vec.rs` : `BitstringVec`

```rust
pub struct BitstringVec {
    blocks: Vec<u64>,
    bit_count: usize,
    occupied_len: usize,
    len: usize,
}
```
Blocks are 64-bit words; slot `i` occupies bits
`[i * bit_count, (i+1) * bit_count)` of the word sequence, least significant
bits first, straddling at most two words.
-/

structure BitstringVec where
  blocks : List ℕ
  bit_count : ℕ
  occupied_len : ℕ
  len : ℕ
  deriving Repr, DecidableEq

namespace BitstringVec

/-- Rust: `(bit_count * len + BLOCK_BIT_COUNT - 1) / BLOCK_BIT_COUNT` with
`BLOCK_BIT_COUNT = 64`. -/
def getBlockCount (bit_count len : ℕ) : ℕ := (bit_count * len + 64 - 1) / 64

/-- Rust: `(block_count * BLOCK_BIT_COUNT) / bit_count`. -/
def getElemCount (bit_count block_count : ℕ) : ℕ := block_count * 64 / bit_count

/-- Rust: `if size == 64 { !0 } else { (1u64 << size) - 1 }`. -/
def getMask (size : ℕ) : ℕ := if size = 64 then U64 - 1 else 2 ^ size - 1

/-- Rust `BitstringVec::new`. -/
def new (bit_count len : ℕ) : BitstringVec :=
  { blocks := List.replicate (getBlockCount bit_count len) 0
    bit_count := bit_count
    occupied_len := 0
    len := len }

/-- Rust `BitstringVec::get` (the caller must have `index < len`; the Rust
assertion is carried as a hypothesis by every theorem that uses `get`).

```rust
let bit_offset = index * self.bit_count;
let table_index = bit_offset / 64;
let bit_index = bit_offset % 64;
let bits_left = self.bit_count as isize - (64 - bit_index as isize);
bitstring |= (self.blocks[table_index] >> bit_index) & Self::get_mask(self.bit_count);
if bits_left > 0 {
    let offset = self.bit_count - bits_left as usize;
    bitstring |= (self.blocks[table_index + 1] & Self::get_mask(bits_left as usize)) << offset;
}
```
`bits_left > 0` is `64 < bit_count + bit_index`, and then
`bits_left = bit_count + bit_index - 64`. -/
def get (v : BitstringVec) (index : ℕ) : ℕ :=
  let bit_offset := index * v.bit_count
  let table_index := bit_offset / 64
  let bit_index := bit_offset % 64
  let lo := (v.blocks.getD table_index 0 >>> bit_index) &&& getMask v.bit_count
  if 64 < v.bit_count + bit_index then
    let bits_left := v.bit_count + bit_index - 64
    let offset := v.bit_count - bits_left
    lo ||| ((v.blocks.getD (table_index + 1) 0 &&& getMask bits_left) <<< offset)
  else
    lo

/-- Bitwise complement of a `u64` word. -/
def notU64 (x : ℕ) : ℕ := (U64 - 1) ^^^ x

/-- Rust `BitstringVec::set` (caller must have `index < len`).

```rust
let prev_is_zero = self.get(index) == 0;
...
self.blocks[table_index] &= !(Self::get_mask(self.bit_count) << bit_index);
self.blocks[table_index] |= bitstring << bit_index;
if bits_left > 0 {
    let offset = self.bit_count - bits_left as usize;
    self.blocks[table_index + 1] &= !Self::get_mask(bits_left as usize);
    self.blocks[table_index + 1] |= bitstring >> offset;
}
let curr_is_zero = bitstring == 0;
if prev_is_zero != curr_is_zero { ... occupied_len ± 1 ... }
```
The Rust shifts are `u64` shifts, so shifted-out bits are dropped: every
freshly written word is reduced `% 2^64`.  `occupied_len -= 1` is `usize`
subtraction; on the states the claims quantify over it never underflows,
and it is embedded as truncated `Nat` subtraction. -/
def set (v : BitstringVec) (index bitstring : ℕ) : BitstringVec :=
  let prev_is_zero := decide (v.get index = 0)
  let bit_offset := index * v.bit_count
  let table_index := bit_offset / 64
  let bit_index := bit_offset % 64
  let w0 := v.blocks.getD table_index 0
  let w0 := w0 &&& notU64 ((getMask v.bit_count <<< bit_index) % U64)
  let w0 := (w0 ||| (bitstring <<< bit_index)) % U64
  let blocks := v.blocks.set table_index w0
  let blocks :=
    if 64 < v.bit_count + bit_index then
      let bits_left := v.bit_count + bit_index - 64
      let offset := v.bit_count - bits_left
      let w1 := blocks.getD (table_index + 1) 0
      let w1 := w1 &&& notU64 (getMask bits_left)
      let w1 := (w1 ||| (bitstring >>> offset)) % U64
      blocks.set (table_index + 1) w1
    else blocks
  let curr_is_zero := decide (bitstring = 0)
  let occupied_len :=
    if prev_is_zero ≠ curr_is_zero then
      if curr_is_zero then v.occupied_len - 1 else v.occupied_len + 1
    else v.occupied_len
  { v with blocks := blocks, occupied_len := occupied_len }

/-- Rust `BitstringVec::pop` (caller must have `!is_empty`); returns the popped
value and the new vector.

```rust
let ret = self.get(self.len - 1);
let new_blocks_len = Self::get_block_count(self.bit_count, len - 1);
self.blocks.truncate(new_blocks_len);
self.len -= 1;
if ret != 0 { self.occupied_len -= 1; }
```
-/
def pop (v : BitstringVec) : ℕ × BitstringVec :=
  let ret := v.get (v.len - 1)
  let new_blocks_len := getBlockCount v.bit_count (v.len - 1)
  let blocks := v.blocks.take new_blocks_len
  let occupied_len := if ret ≠ 0 then v.occupied_len - 1 else v.occupied_len
  (ret, { v with blocks := blocks, len := v.len - 1, occupied_len := occupied_len })

/-- Rust `BitstringVec::push`.

```rust
let new_block_len = Self::get_block_count(self.bit_count, self.len + 1);
let block_len = self.blocks.len();
self.blocks.extend(iter::repeat(0).take(new_block_len - block_len));
let len = self.len;
let occupied_len = self.occupied_len;
self.len += 1;
self.set(len, bitstring);
self.occupied_len = occupied_len;
if bitstring != 0 { self.occupied_len = occupied_len + 1; }
```
-/
def push (v : BitstringVec) (bitstring : ℕ) : BitstringVec :=
  let new_block_len := getBlockCount v.bit_count (v.len + 1)
  let blocks := v.blocks ++ List.replicate (new_block_len - v.blocks.length) 0
  let len := v.len
  let occupied_len := v.occupied_len
  let v' : BitstringVec := { v with blocks := blocks, len := v.len + 1 }
  let v' := v'.set len bitstring
  { v' with occupied_len := if bitstring ≠ 0 then occupied_len + 1 else occupied_len }

/-- Rust `BitstringVec::truncate`: `while len < self.len { self.pop(); }`. -/
def truncate (v : BitstringVec) (len : ℕ) : BitstringVec :=
  if len < v.len then truncate (v.pop).2 len else v
  termination_by v.len - len
  decreasing_by
    simp only [pop]
    omega

/-- Rust `BitstringVec::clear`: zero every block, reset `occupied_len` (the
length is kept). -/
def clear (v : BitstringVec) : BitstringVec :=
  { v with blocks := List.replicate v.blocks.length 0, occupied_len := 0 }

/-- Specification-side view: bit `n` of the packed word sequence
(word `n / 64`, bit `n % 64`). -/
def blockBit (blocks : List ℕ) (n : ℕ) : Bool :=
  (blocks.getD (n / 64) 0).testBit (n % 64)

/-- Specification-side occupancy: the number of indices `i < len` whose slot
value is non-zero. -/
def occSpec (v : BitstringVec) : ℕ :=
  ((Finset.range v.len).filter fun i => v.get i ≠ 0).card

/-- Structural well-formedness of a `BitstringVec`, as established by
`new` and preserved by every operation: positive slot width of at most 64
bits, exactly `get_block_count` backing words, all words in `u64` range,
and the cached `occupied_len` equal to the number of non-zero slots. -/
structure WF (v : BitstringVec) : Prop where
  pos : 0 < v.bit_count
  le64 : v.bit_count ≤ 64
  len_blocks : v.blocks.length = getBlockCount v.bit_count v.len
  blocks_lt : ∀ b ∈ v.blocks, b < U64
  occ : v.occupied_len = occSpec v

/-- The mutating operations of the `BitstringVec` claim. -/
inductive Op where
  | set (index bitstring : ℕ)
  | push (bitstring : ℕ)
  | pop
  | truncate (len : ℕ)
  | clear
  deriving Repr, DecidableEq

/-- Run one operation. -/
def applyOp (v : BitstringVec) : Op → BitstringVec
  | .set i x => v.set i x
  | .push x => v.push x
  | .pop => (v.pop).2
  | .truncate n => v.truncate n
  | .clear => v.clear

/-- Run a list of operations in order. -/
def applyOps (v : BitstringVec) : List Op → BitstringVec
  | [] => v
  | op :: ops => applyOps (applyOp v op) ops

/-- The caller-side preconditions of each operation: the in-bounds asserts
of `set` and `pop`, and the claim's requirement that every written value
fits in the slot width. -/
def ValidOp (v : BitstringVec) : Op → Prop
  | .set i x => i < v.len ∧ x < 2 ^ v.bit_count
  | .push x => x < 2 ^ v.bit_count
  | .pop => 0 < v.len
  | .truncate _ => True
  | .clear => True

/-- Validity of a whole operation sequence, checked state by state. -/
def ValidOps (v : BitstringVec) : List Op → Prop
  | [] => True
  | op :: ops => ValidOp v op ∧ ValidOps (applyOp v op) ops

instance decidableValidOp (v : BitstringVec) (op : Op) : Decidable (ValidOp v op) := by
  cases op <;> simp only [ValidOp] <;> infer_instance

instance decidableValidOps : (v : BitstringVec) → (ops : List Op) → Decidable (ValidOps v ops)
  | _, [] => .isTrue trivial
  | v, op :: ops =>
      have : Decidable (ValidOps (applyOp v op) ops) := decidableValidOps _ ops
      by simp only [ValidOps]; exact And.decidable

end BitstringVec

/-! ## `src/bit_vec.rs` : `BitVec`

```rust
pub struct BitVec {
    blocks: Vec<u8>,
    len: usize,
    one_count: usize,
}
```
Blocks are bytes (`BLOCK_BIT_COUNT = 8`); bit `i` is bit `i % 8` of byte
`i / 8`, least significant bit first.
-/

structure BitVec where
  blocks : List ℕ
  len : ℕ
  one_count : ℕ
  deriving Repr, DecidableEq

namespace BitVec

/-- Rust: `(len + BLOCK_BIT_COUNT - 1) / BLOCK_BIT_COUNT` with
`BLOCK_BIT_COUNT = 8`. -/
def getBlockCount (len : ℕ) : ℕ := (len + 8 - 1) / 8

/-- Bitwise complement of a `u8`. -/
def notU8 (x : ℕ) : ℕ := (U8 - 1) ^^^ x

/-- Rust `BitVec::clear_extra_bits`:

```rust
let extra_bits = self.len() % BLOCK_BIT_COUNT;
if extra_bits > 0 {
    let mask = (1 << extra_bits) - 1;
    let blocks_len = self.blocks.len();
    let block = &mut self.blocks[blocks_len - 1];
    *block &= mask;
}
```
-/
def clear_extra_bits (v : BitVec) : BitVec :=
  let extra_bits := v.len % 8
  if 0 < extra_bits then
    let mask := (1 <<< extra_bits) - 1
    let blocks_len := v.blocks.length
    { v with
      blocks := v.blocks.set (blocks_len - 1) (v.blocks.getD (blocks_len - 1) 0 &&& mask) }
  else v

/-- Rust `BitVec::new`. -/
def new (len : ℕ) : BitVec :=
  { blocks := List.replicate (getBlockCount len) 0, len := len, one_count := 0 }

/-- Rust `BitVec::from_elem`. -/
def from_elem (len : ℕ) (bit : Bool) : BitVec :=
  clear_extra_bits
    { blocks := List.replicate (getBlockCount len) (if bit then U8 - 1 else 0)
      len := len
      one_count := if bit then len else 0 }

/-- Rust `BitVec::get`:

```rust
if index >= self.len { None } else {
    self.blocks.get(block_index).map(|block| ((block >> bit_index) & 1) != 0)
}
```
-/
def get (v : BitVec) (index : ℕ) : Option Bool :=
  if v.len ≤ index then none
  else (v.blocks.get? (index / 8)).map fun block =>
    decide ((block >>> (index % 8)) &&& 1 ≠ 0)

/-- Rust `BitVec::set` (caller must have `index < len`). -/
def set (v : BitVec) (index : ℕ) (bit : Bool) : BitVec :=
  let block_index := index / 8
  let bit_index := index % 8
  let mask := 1 <<< bit_index
  let block := v.blocks.getD block_index 0
  let prev := ((block >>> bit_index) &&& 1) ≠ 0
  if bit then
    { v with
      one_count := if ¬ prev then v.one_count + 1 else v.one_count
      blocks := v.blocks.set block_index (block ||| mask) }
  else
    { v with
      one_count := if prev then v.one_count - 1 else v.one_count
      blocks := v.blocks.set block_index (block &&& notU8 mask) }

/-- Rust `BitVec::flip` (caller must have `index < len`). -/
def flip (v : BitVec) (index : ℕ) : BitVec :=
  let block_index := index / 8
  let bit_index := index % 8
  let mask := 1 <<< bit_index
  let block := v.blocks.getD block_index 0
  if (block >>> bit_index) &&& 1 = 0 then
    { v with
      one_count := v.one_count + 1
      blocks := v.blocks.set block_index (block ||| mask) }
  else
    { v with
      one_count := v.one_count - 1
      blocks := v.blocks.set block_index (block &&& notU8 mask) }

/-- Rust `BitVec::set_all`. -/
def set_all (v : BitVec) (bit : Bool) : BitVec :=
  let mask := if bit then U8 - 1 else 0
  clear_extra_bits
    { v with
      one_count := if bit then v.len else 0
      blocks := v.blocks.map fun _ => mask }

/-- Rust `BitVec::flip_all`: complement every block; `one_count` becomes
`len - one_count`.  (No `clear_extra_bits` in the source.) -/
def flip_all (v : BitVec) : BitVec :=
  { v with
    one_count := v.len - v.one_count
    blocks := v.blocks.map notU8 }

/-- Rust `BitVec::truncate`:

```rust
if len < self.len {
    self.len = len;
    self.blocks.truncate(Self::get_block_count(len));
    self.clear_extra_bits();
}
```
Note that `one_count` is not touched. -/
def truncate (v : BitVec) (len : ℕ) : BitVec :=
  if len < v.len then
    clear_extra_bits { v with len := len, blocks := v.blocks.take (getBlockCount len) }
  else v

/-- Rust `BitVec::pop`. -/
def pop (v : BitVec) : Option Bool × BitVec :=
  if v.len = 0 then (none, v)
  else
    let index := v.len - 1
    let ret := v.get index
    let v := v.set index false
    let v := { v with len := v.len - 1 }
    let v := if v.len % 8 = 0 then { v with blocks := v.blocks.dropLast } else v
    (ret, v)

/-- Rust `BitVec::push`. -/
def push (v : BitVec) (bit : Bool) : BitVec :=
  let v := if v.len % 8 = 0 then { v with blocks := v.blocks ++ [0] } else v
  let index := v.len
  let v := { v with len := v.len + 1 }
  v.set index bit

/-- Rust `BitVec::count_ones`: returns the cached `one_count`. -/
def count_ones (v : BitVec) : ℕ := v.one_count

/-- Rust `Clone::clone_from` for `BitVec`:

```rust
fn clone_from(&mut self, source: &Self) {
    self.len = source.len;
    self.blocks.clone_from(&source.blocks);
}
```
Note that `one_count` is not copied: the destination keeps its own. -/
def clone_from (v source : BitVec) : BitVec :=
  { v with len := source.len, blocks := source.blocks }

/-- Specification-side popcount: the number of `true` bits among the first
`len` bits, read through `get`.  (This is what the spec says `count_ones`
must equal; it is deliberately written from the spec, not from the code,
to be compared against the cached `one_count`.) -/
def onesBelowLen (v : BitVec) : ℕ :=
  (List.range v.len).countP fun i => v.get i = some true

end BitVec

/-! ## `src/quotient.rs` : `QuotientFilter` (construction)

```rust
pub struct QuotientFilter<T, B> {
    quotient_bits: u8,
    remainder_bits: u8,
    quotient_mask: u64,
    remainder_mask: u64,
    slot_vec: BitstringVec,
    hash_builder: B,
    len: usize,
}
```
-/

structure QuotientFilter where
  quotient_bits : ℕ
  remainder_bits : ℕ
  quotient_mask : ℕ
  remainder_mask : ℕ
  slot_vec : BitstringVec
  len : ℕ
  deriving Repr, DecidableEq

namespace QuotientFilter

/-- Rust `QuotientFilter::get_mask`: `(1u64 << size) - 1`. -/
def get_mask (size : ℕ) : ℕ := (1 <<< size) - 1

/-- Rust `QuotientFilter::with_hasher` (the hash builder plays no role in
the state layout; the asserts `quotient_bits > 0`, `remainder_bits > 0`,
`quotient_bits + remainder_bits <= 64` are carried as hypotheses where
needed):

```rust
let slot_bits = remainder_bits + METADATA_BITS;           // r + 3
let slot_vec_len = u64::from(slot_bits) * (1u64 << quotient_bits);
QuotientFilter {
    quotient_bits, remainder_bits,
    quotient_mask: Self::get_mask(quotient_bits),
    remainder_mask: Self::get_mask(remainder_bits),
    slot_vec: BitstringVec::new(slot_bits as usize, slot_vec_len as usize),
    ...
    len: 0,
}
```
`BitstringVec::new(bit_count, len)` takes the number of *slots* as its
second argument, so the backing vector is created with
`(r + 3) * 2^q` slots of `r + 3` bits each. -/
def with_hasher (quotient_bits remainder_bits : ℕ) : QuotientFilter :=
  let slot_bits := remainder_bits + 3
  let slot_vec_len := slot_bits * (1 <<< quotient_bits)
  { quotient_bits := quotient_bits
    remainder_bits := remainder_bits
    quotient_mask := get_mask quotient_bits
    remainder_mask := get_mask remainder_bits
    slot_vec := BitstringVec.new slot_bits slot_vec_len
    len := 0 }

/-- Rust `QuotientFilter::capacity`: `1 << quotient_bits` slots are in
use (the backing vector over-allocates, see `with_hasher`). -/
def capacity (f : QuotientFilter) : ℕ := 1 <<< f.quotient_bits

/-- Rust `QuotientFilter::get_quotient_and_remainder(hash)`:
`((hash >> remainder_bits) & quotient_mask, hash & remainder_mask)`. -/
def get_quotient_and_remainder (f : QuotientFilter) (hash : ℕ) : ℕ × ℕ :=
  ((hash >>> f.remainder_bits) &&& f.quotient_mask, hash &&& f.remainder_mask)

/-- Rust `QuotientFilter::increment_index`: wrap at `capacity() - 1`. -/
def increment_index (f : QuotientFilter) (index : ℕ) : ℕ :=
  if index = f.capacity - 1 then 0 else index + 1

/-- Rust `QuotientFilter::decrement_index`: wrap at `0`. -/
def decrement_index (f : QuotientFilter) (index : ℕ) : ℕ :=
  if index = 0 then f.capacity - 1 else index - 1

/-- Rust `QuotientFilter::get_run_start`, first loop: walk left while the
slot is shifted, counting occupied slots (`SHIFTED_MASK = 1`,
`OCCUPIED_MASK = 4`); unbounded in the source, embedded with fuel
(`none` = fuel exhausted). -/
def clusterLoop (f : QuotientFilter) : ℕ → ℕ → ℕ → Option (ℕ × ℕ)
  | 0, _, _ => none
  | fuel + 1, index, occupied_count =>
      let slot := f.slot_vec.get index
      let occupied_count :=
        if slot &&& 4 ≠ 0 then occupied_count + 1 else occupied_count
      if slot &&& 1 = 0 then some (index, occupied_count)
      else clusterLoop f fuel (f.decrement_index index) occupied_count

/-- Rust `QuotientFilter::get_run_start`, second loop: walk right counting
run heads (`CONTINUATION_MASK = 2`) and occupied slots until the number of
runs matches the occupied count from the first loop. -/
def runLoop (f : QuotientFilter) :
    ℕ → ℕ → ℕ → ℕ → ℕ → Option (ℕ × ℕ × ℕ)
  | 0, _, _, _, _ => none
  | fuel + 1, index, occupied_count, runs_count, total_occupied_count =>
      let slot := f.slot_vec.get index
      let total_occupied_count :=
        if slot &&& 4 ≠ 0 then total_occupied_count + 1 else total_occupied_count
      let runs_count := if slot &&& 2 = 0 then runs_count + 1 else runs_count
      if occupied_count = runs_count then
        some (index, runs_count, total_occupied_count)
      else runLoop f fuel (f.increment_index index) occupied_count runs_count
        total_occupied_count

/-- Rust `QuotientFilter::get_run_start(index)`: returns
`(run start index, # runs from cluster start, # occupied slots seen)`. -/
def get_run_start (f : QuotientFilter) (fuel index : ℕ) : Option (ℕ × ℕ × ℕ) :=
  match clusterLoop f fuel index 0 with
  | none => none
  | some (index, occupied_count) => runLoop f fuel index occupied_count 0 0

/-- Rust `QuotientFilter::insert_and_shift_right`: ripple the displaced
slots right until an empty slot absorbs the last one, transferring
occupied bits (which stay with their index) and setting the shifted bit
on every slot moved. -/
def shiftRightLoop : ℕ → QuotientFilter → ℕ → ℕ → Option QuotientFilter
  | 0, _, _, _ => none
  | fuel + 1, f, index, curr_slot =>
      let next_slot := f.slot_vec.get index
      let is_empty_slot := next_slot &&& 7 = 0
      let pair :=
        if next_slot &&& 4 ≠ 0 then
          (next_slot &&& BitstringVec.notU64 4, curr_slot ||| 4)
        else (next_slot, curr_slot)
      let f' := { f with slot_vec := f.slot_vec.set index pair.2 }
      let curr_slot := pair.1
      let index := f'.increment_index index
      if is_empty_slot then some f'
      else shiftRightLoop fuel f' index (curr_slot ||| 1)

/-- Rust `QuotientFilter::contains`, run-scan loop: compare the stored
remainder (`slot >> 3`) with the probe remainder; runs are sorted so a
greater stored remainder means absent. -/
def containsLoop (f : QuotientFilter) (remainder : ℕ) :
    ℕ → ℕ → ℕ → Option Bool
  | 0, _, _ => none
  | fuel + 1, index, slot =>
      if slot >>> 3 = remainder then some true
      else if remainder < slot >>> 3 then some false
      else
        let index := f.increment_index index
        let slot := f.slot_vec.get index
        if slot &&& 2 = 0 then some false
        else containsLoop f remainder fuel index slot

/-- Rust `QuotientFilter::contains(item)`, with the item's 64-bit hash
passed explicitly (the hasher is an oracle). -/
def containsHash (f : QuotientFilter) (hash fuel : ℕ) : Option Bool :=
  let qr := f.get_quotient_and_remainder hash
  let slot := f.slot_vec.get qr.1
  if slot &&& 4 = 0 then some false
  else if slot >>> 3 = qr.2 ∧ slot &&& 2 = 0 ∧ slot &&& 1 = 0 then some true
  else
    match f.get_run_start fuel qr.1 with
    | none => none
    | some (index, _, _) => containsLoop f qr.2 fuel index (f.slot_vec.get index)

/-- Rust `QuotientFilter::insert`, position-finding loop inside an
existing run: advance while the stored remainder is not greater, stopping
at the end of the run; returns the insertion index. -/
def insertFindPos (f : QuotientFilter) (remainder : ℕ) :
    ℕ → ℕ → ℕ → Option ℕ
  | 0, _, _ => none
  | fuel + 1, index, slot =>
      if remainder < slot >>> 3 then some index
      else
        let index := f.increment_index index
        let slot := f.slot_vec.get index
        if slot &&& 2 = 0 then some index
        else insertFindPos f remainder fuel index slot

/-- Rust `QuotientFilter::insert(item)`, with the item's 64-bit hash
passed explicitly.  `some (Sum.inl ())` models the
`assert!(self.len() < self.capacity())` panic; `some (Sum.inr f)` the
normal return; `none` exhausted fuel. -/
def insertHash (f : QuotientFilter) (hash fuel : ℕ) :
    Option (Sum Unit QuotientFilter) :=
  let qr := f.get_quotient_and_remainder hash
  let quotient := qr.1
  let remainder := qr.2
  let slot := f.slot_vec.get quotient
  if slot &&& 7 = 0 then
    some (Sum.inr { f with
      slot_vec := f.slot_vec.set quotient ((remainder <<< 3) ||| 4)
      len := (f.len + 1) % U64 })
  else
    match f.containsHash hash fuel with
    | none => none
    | some true => some (Sum.inr f)
    | some false =>
      if f.capacity ≤ f.len then some (Sum.inl ())
      else
        let new_run := slot &&& 4 = 0
        let f1 :=
          if slot &&& 4 = 0 then
            { f with slot_vec := f.slot_vec.set quotient (slot ||| 4) }
          else f
        match f1.get_run_start fuel quotient with
        | none => none
        | some (run_start, _, _) =>
          let new_slot := remainder <<< 3
          if new_run then
            let new_slot := if run_start ≠ quotient then new_slot ||| 1 else new_slot
            (shiftRightLoop fuel { f1 with len := (f1.len + 1) % U64 }
              run_start new_slot).map Sum.inr
          else
            match insertFindPos f1 remainder fuel run_start
                (f1.slot_vec.get run_start) with
            | none => none
            | some index =>
              let pair :=
                if index = run_start then
                  ({ f1 with slot_vec :=
                      f1.slot_vec.set run_start (f1.slot_vec.get run_start ||| 2) },
                    new_slot)
                else (f1, new_slot ||| 2)
              let new_slot :=
                if index ≠ quotient then pair.2 ||| 1 else pair.2
              (shiftRightLoop fuel { pair.1 with len := (pair.1.len + 1) % U64 }
                index new_slot).map Sum.inr

/-- Rust `QuotientFilter::remove`, item-finding loop: like the contains
scan but also counting occupied slots passed; `some none` models the
early `return` (item absent, filter unchanged). -/
def removeFindLoop (f : QuotientFilter) (remainder : ℕ) :
    ℕ → ℕ → ℕ → ℕ → Option (Option (ℕ × ℕ × ℕ))
  | 0, _, _, _ => none
  | fuel + 1, index, slot, occupied_count =>
      if slot >>> 3 = remainder then some (some (index, slot, occupied_count))
      else if remainder < slot >>> 3 then some none
      else
        let index := f.increment_index index
        let slot := f.slot_vec.get index
        let occupied_count :=
          if slot &&& 4 ≠ 0 then occupied_count + 1 else occupied_count
        if slot &&& 2 = 0 then some none
        else removeFindLoop f remainder fuel index slot occupied_count

/-- Rust `QuotientFilter::remove`, shift-left cascade: clear the removed
slot and pull every following shifted/continuation slot one slot left,
rebuilding metadata (run heads, canonical occupied bits, shifted flags)
as it goes; exits at the first slot that is neither shifted nor a
continuation, and then decrements `len` (wrapping, as `usize` does). -/
def removeShiftLoop (quotient : ℕ) :
    ℕ → QuotientFilter → ℕ → ℕ → ℕ → ℕ → ℕ → Bool → Option QuotientFilter
  | 0, _, _, _, _, _, _, _ => none
  | fuel + 1, f, index, next_index, slot, runs_count, occupied_count,
      is_run_start =>
      let next_slot := f.slot_vec.get next_index
      if next_slot &&& 2 = 0 ∧ next_slot &&& 1 = 0 then
        some { f with len := (f.len + (U64 - 1)) % U64 }
      else
        let f := { f with slot_vec := f.slot_vec.set next_index 0 }
        let triple :=
          if next_slot &&& 2 = 0 then
            (runs_count + 1,
              if is_run_start then
                { f with slot_vec := (f.slot_vec.set quotient
                    (f.slot_vec.get quotient &&& BitstringVec.notU64 4)) }
              else f,
              slot)
          else
            (runs_count, f, if ¬ is_run_start then slot ||| 2 else slot)
        let runs_count := triple.1
        let f := triple.2.1
        let slot := triple.2.2
        let slot :=
          if slot &&& 4 = 0 ∨ occupied_count ≠ runs_count then slot ||| 1
          else slot
        let slot := slot ||| (next_slot &&& BitstringVec.notU64 7)
        let f := { f with slot_vec := f.slot_vec.set index slot }
        let occupied_count :=
          if next_slot &&& 4 ≠ 0 then occupied_count + 1 else occupied_count
        let slot := next_slot &&& 4
        let index := next_index
        let next_index := f.increment_index next_index
        removeShiftLoop quotient fuel f index next_index slot runs_count
          occupied_count false

/-- Rust `QuotientFilter::remove(item)`, with the item's 64-bit hash
passed explicitly. -/
def removeHash (f : QuotientFilter) (hash fuel : ℕ) : Option QuotientFilter :=
  let qr := f.get_quotient_and_remainder hash
  let quotient := qr.1
  let remainder := qr.2
  if f.slot_vec.get quotient &&& 7 = 0 then some f
  else
    match f.get_run_start fuel quotient with
    | none => none
    | some (index, runs_count, occupied_count) =>
      match removeFindLoop f remainder fuel index (f.slot_vec.get index)
          occupied_count with
      | none => none
      | some none => some f
      | some (some (index, slot, occupied_count)) =>
        let is_run_start := decide (slot &&& 2 = 0)
        let slot := slot &&& 4
        let f := { f with slot_vec := f.slot_vec.set index 0 }
        let next_index := f.increment_index index
        removeShiftLoop quotient fuel f index next_index slot runs_count
          occupied_count is_run_start

/-- Rust `QuotientFilter::clear`. -/
def clear (f : QuotientFilter) : QuotientFilter :=
  { f with slot_vec := f.slot_vec.clear, len := 0 }

/-- A public-API operation on the quotient filter: insert or remove of an
item with the given 64-bit hash. -/
inductive QOp where
  | ins (hash : ℕ)
  | rem (hash : ℕ)
  deriving Repr, DecidableEq

/-- Apply one operation with the given loop fuel; an insert that panics
(or exhausted fuel anywhere) aborts the run with `none`. -/
def applyQOp (f : QuotientFilter) (fuel : ℕ) : QOp → Option QuotientFilter
  | QOp.ins h =>
      match f.insertHash h fuel with
      | some (Sum.inr f') => some f'
      | _ => none
  | QOp.rem h => f.removeHash h fuel

/-- Apply a list of operations left to right. -/
def applyQOps (f : QuotientFilter) (fuel : ℕ) : List QOp → Option QuotientFilter
  | [] => some f
  | op :: t =>
      match applyQOp f fuel op with
      | none => none
      | some f' => applyQOps f' fuel t

end QuotientFilter

/-- The quotient filter reached from the empty `with_hasher 2 1` filter
(capacity 4, 1-bit remainders) by inserting hashes 7, 6, 5, 4, i.e. the
fingerprints (3,1), (3,0), (2,1), (2,0); the filter is exactly full. -/
def qfC1 : QuotientFilter :=
  { quotient_bits := 2
    remainder_bits := 1
    quotient_mask := 3
    remainder_mask := 1
    slot_vec := { blocks := [62641], bit_count := 4, occupied_len := 4, len := 16 }
    len := 4 }

/-- The filter `qfC1` after `remove` of hash 1 (fingerprint (0,1), never
inserted): the stored fingerprint (3,1) has been deleted. -/
def qfC1r : QuotientFilter :=
  { quotient_bits := 2
    remainder_bits := 1
    quotient_mask := 3
    remainder_mask := 1
    slot_vec := { blocks := [62465], bit_count := 4, occupied_len := 3, len := 16 }
    len := 3 }

/-- The quotient filter reached from empty `with_hasher 2 1` by the
operations insert 0, insert 1, insert 2, remove 2, insert 3, insert 5:
its canonical slots 1 and 2 are both occupied yet resolve to the same
physical run, whose remainders are 1, 1 — not strictly ascending. -/
def qfC2 : QuotientFilter :=
  { quotient_bits := 2
    remainder_bits := 1
    quotient_mask := 3
    remainder_mask := 1
    slot_vec := { blocks := [48372], bit_count := 4, occupied_len := 4, len := 16 }
    len := 4 }

/-- The quotient filter reached from empty `with_hasher 2 1` by the
operations insert 0, insert 1, insert 2, remove 2, remove 2, insert 3,
insert 4: every one of the 4 slots is physically occupied but the `len`
field says 3. -/
def qfC6 : QuotientFilter :=
  { quotient_bits := 2
    remainder_bits := 1
    quotient_mask := 3
    remainder_mask := 1
    slot_vec := { blocks := [46324], bit_count := 4, occupied_len := 4, len := 16 }
    len := 3 }

/-- The internal state of `qfC6.insertHash 6` as it enters
`insert_and_shift_right`: the canonical slot 3 has had its occupied bit
set and `len` was bumped to 4; from here the shift loop can never find an
empty slot. -/
def qfC6loop : QuotientFilter :=
  { quotient_bits := 2
    remainder_bits := 1
    quotient_mask := 3
    remainder_mask := 1
    slot_vec := { blocks := [62708], bit_count := 4, occupied_len := 4, len := 16 }
    len := 4 }

/-! ## `src/bit_array_vec.rs` : `BitArrayVec`

```rust
pub struct BitArrayVec {
    blocks: Vec<u8>,
    bit_count: usize,
    occupied_len: usize,
    len: usize,
}
```
The same packed-slot container as `BitstringVec`, but over bytes, and with
slots exposed as little-endian byte sequences of `ceil(bit_count / 8)`
bytes.  `get`/`set` process the slot in chunks bounded by byte boundaries
of the destination (`set`) resp. the source (`get`).
-/

structure BitArrayVec where
  blocks : List ℕ
  bit_count : ℕ
  occupied_len : ℕ
  len : ℕ
  deriving Repr, DecidableEq

namespace BitArrayVec

/-- Rust: `(bit_count * len + BLOCK_BIT_COUNT - 1) / BLOCK_BIT_COUNT` with
`BLOCK_BIT_COUNT = 8`. -/
def get_block_count (bit_count len : ℕ) : ℕ := (bit_count * len + 8 - 1) / 8

/-- Rust: `(block_count * BLOCK_BIT_COUNT) / bit_count`. -/
def get_elem_count (bit_count block_count : ℕ) : ℕ := block_count * 8 / bit_count

/-- Bitwise complement of a `u8`. -/
def notU8 (x : ℕ) : ℕ := (U8 - 1) ^^^ x

/-- Rust `BitArrayVec::new`. -/
def new (bit_count len : ℕ) : BitArrayVec :=
  { blocks := List.replicate (get_block_count bit_count len) 0
    bit_count := bit_count
    occupied_len := 0
    len := len }

/-- The `while bits_left > 0` loop of `BitArrayVec::get`; `ret` is the
accumulating output byte list.  All shifts are `u8` shifts (reduced
`% 2^8` where they can overflow). -/
def getLoop (blocks : List ℕ) (ret : List ℕ) (bits_left bits_offset ret_offset : ℕ) :
    List ℕ :=
  if 0 < bits_left then
    let curr_bits := min bits_left 8
    let bits_left' := bits_left - curr_bits
    let old_bits :=
      if bits_offset % 8 = 0 then blocks.getD (bits_offset / 8) 0
      else if curr_bits ≤ 8 - bits_offset % 8 then
        blocks.getD (bits_offset / 8) 0 >>> (bits_offset % 8)
      else
        (blocks.getD (bits_offset / 8) 0 >>> (bits_offset % 8)) |||
          ((blocks.getD (bits_offset / 8 + 1) 0 <<< (8 - bits_offset % 8)) % U8)
    let ret := ret.set (ret_offset / 8) (old_bits &&& ((U8 - 1) >>> (8 - curr_bits)))
    getLoop blocks ret bits_left' (bits_offset + curr_bits) (ret_offset + curr_bits)
  else ret
  termination_by bits_left
  decreasing_by omega

/-- Rust `BitArrayVec::get` (caller must have `index < len`): returns the
slot as `ceil(bit_count / 8)` bytes, low bytes first. -/
def get (v : BitArrayVec) (index : ℕ) : List ℕ :=
  getLoop v.blocks (List.replicate ((v.bit_count + 7) / 8) 0) v.bit_count
    (index * v.bit_count) 0

/-- The `while bits_left > 0` loop of `BitArrayVec::set`.  `bytes` is the
source byte sequence; chunks are bounded by destination byte boundaries. -/
def setLoop (blocks bytes : List ℕ) (bits_left bits_offset byte_offset : ℕ) :
    List ℕ :=
  if 0 < bits_left then
    let curr_bits := min bits_left (8 - bits_offset % 8)
    let bits_left' := bits_left - curr_bits
    let new_bits :=
      if byte_offset % 8 = 0 then bytes.getD (byte_offset / 8) 0
      else if bits_left' + curr_bits ≤ 8 - byte_offset % 8 then
        bytes.getD (byte_offset / 8) 0 >>> (byte_offset % 8)
      else
        (bytes.getD (byte_offset / 8) 0 >>> (byte_offset % 8)) |||
          ((bytes.getD (byte_offset / 8 + 1) 0 <<< (8 - byte_offset % 8)) % U8)
    let new_bits := ((new_bits <<< (8 - curr_bits)) % U8) >>> (8 - curr_bits)
    let b := blocks.getD (bits_offset / 8) 0
    let b := b &&& notU8 ((((U8 - 1) >>> (8 - curr_bits)) <<< (bits_offset % 8)) % U8)
    let b := b ||| ((new_bits <<< (bits_offset % 8)) % U8)
    let blocks := blocks.set (bits_offset / 8) b
    setLoop blocks bytes bits_left' (bits_offset + curr_bits) (byte_offset + curr_bits)
  else blocks
  termination_by bits_left
  decreasing_by omega

/-- Whether a slot's byte sequence is all zero:
`.iter().all(|byte| *byte == 0)`. -/
def allZero (bytes : List ℕ) : Bool := bytes.all fun b => b == 0

/-- Rust `BitArrayVec::set` (caller must have `index < len`). -/
def set (v : BitArrayVec) (index : ℕ) (bytes : List ℕ) : BitArrayVec :=
  let prev_is_zero := allZero (v.get index)
  let blocks := setLoop v.blocks bytes v.bit_count (index * v.bit_count) 0
  let curr_is_zero := allZero (BitArrayVec.get { v with blocks := blocks } index)
  let occupied_len :=
    if prev_is_zero ≠ curr_is_zero then
      if curr_is_zero then v.occupied_len - 1 else v.occupied_len + 1
    else v.occupied_len
  { v with blocks := blocks, occupied_len := occupied_len }

/-- Rust `BitArrayVec::clear`: zero every block, reset `occupied_len`. -/
def clear (v : BitArrayVec) : BitArrayVec :=
  { v with blocks := List.replicate v.blocks.length 0, occupied_len := 0 }

end BitArrayVec

/-! ## `src/cuckoo/cuckoo_filter.rs` : `CuckooFilter`

```rust
pub struct CuckooFilter<T, B> {
    max_kicks: usize,
    entries_per_index: usize,
    fingerprint_vec: BitArrayVec,
    extra_items: Vec<(u64, usize)>,
    hash_builders: [B; 2],
    rng: XorShiftRng,
}
```
The two hash builders are embedded as explicit hash functions: `h0`/`h1`
hash an item through builder 0 resp. builder 1, and `hu` hashes a `u64`
through builder 0 (used by the fingerprint rehash loop).  The RNG is
embedded as oracle inputs to `insert`: the initial coin flip and the list
of slot picks of the kick loop.  The unbounded fingerprint-rehash loop is
embedded with fuel: `none` models the (never observed) diverging run.
-/

structure CuckooFilter (α : Type) where
  max_kicks : ℕ
  entries_per_index : ℕ
  fingerprint_vec : BitArrayVec
  extra_items : List (ℕ × ℕ)
  h0 : α → ℕ
  h1 : α → ℕ
  hu : ℕ → ℕ

namespace CuckooFilter

variable {α : Type}

/-- Rust `CuckooFilter::get_fingerprint`: a `u64` as eight little-endian
bytes. -/
def get_fingerprint (raw_fingerprint : ℕ) : List ℕ :=
  (List.range 8).map fun index => (raw_fingerprint >>> (index * 8)) &&& 0xFF

/-- Rust `CuckooFilter::get_raw_fingerprint`: fold the byte sequence back
into a `u64`. -/
def get_raw_fingerprint (fingerprint : List ℕ) : ℕ :=
  fingerprint.enum.foldl (fun ret p => ret ||| (p.2 <<< (p.1 * 8))) 0

/-- Rust `CuckooFilter::fingerprint_bit_count`. -/
def fingerprint_bit_count (F : CuckooFilter α) : ℕ := F.fingerprint_vec.bit_count

/-- Rust `CuckooFilter::capacity`: `fingerprint_vec.capacity()`.  The
backing `Vec<u8>` is allocated once by the constructor and never grows,
so its capacity equals its length. -/
def capacity (F : CuckooFilter α) : ℕ :=
  BitArrayVec.get_elem_count F.fingerprint_vec.bit_count F.fingerprint_vec.blocks.length

/-- Rust `CuckooFilter::bucket_len`: `capacity() / entries_per_index`. -/
def bucket_len (F : CuckooFilter α) : ℕ := F.capacity / F.entries_per_index

/-- Rust `CuckooFilter::get_vec_index`. -/
def get_vec_index (F : CuckooFilter α) (index bucket_index : ℕ) : ℕ :=
  index * F.entries_per_index + bucket_index

/-- The `while raw_fingerprint == 0 { rehash }` loop of
`get_fingerprint_and_indexes`, with fuel. -/
def rawFingerprintLoop (F : CuckooFilter α) : ℕ → ℕ → Option ℕ
  | fuel, h0v =>
    let trailing_zeros := 64 - F.fingerprint_bit_count
    let raw := ((h0v <<< trailing_zeros) % U64) >>> trailing_zeros
    if raw ≠ 0 then some raw
    else
      match fuel with
      | 0 => none
      | fuel + 1 => rawFingerprintLoop F fuel (F.hu h0v)

/-- Rust `CuckooFilter::get_fingerprint_and_indexes`:

```rust
let trailing_zeros = 64 - self.fingerprint_bit_count();
let mut h0 = hash(builders[0], item);
let mut raw_fingerprint = h0 << trailing_zeros >> trailing_zeros;
while raw_fingerprint == 0 { h0 = hash(builders[0], h0); raw_fingerprint = ... }
let fingerprint = Self::get_fingerprint(raw_fingerprint);
let h1 = hash(builders[1], item);
let index_1 = h1 as usize % self.bucket_len();
let index_2 = (index_1 ^ raw_fingerprint as usize) % self.bucket_len();
(fingerprint, index_1, index_2)
```
-/
def get_fingerprint_and_indexes (F : CuckooFilter α) (item : α) (fuel : ℕ) :
    Option (List ℕ × ℕ × ℕ) :=
  (F.rawFingerprintLoop fuel (F.h0 item)).map fun raw_fingerprint =>
    let fingerprint := get_fingerprint raw_fingerprint
    let index_1 := F.h1 item % F.bucket_len
    let index_2 := (index_1 ^^^ raw_fingerprint) % F.bucket_len
    (fingerprint, index_1, index_2)

/-- Byte-wise comparison used by `contains_fingerprint`:
`.iter().zip(fingerprint).all(|pair| pair.0 == pair.1)` (the `zip`
truncates to the shorter sequence, i.e. the stored slot bytes). -/
def bytesMatch (stored query : List ℕ) : Bool :=
  (stored.zip query).all fun p => p.1 == p.2

/-- Rust `CuckooFilter::contains_fingerprint`. -/
def contains_fingerprint (F : CuckooFilter α) (fingerprint : List ℕ)
    (index_1 index_2 : ℕ) : Bool :=
  let raw_fingerprint := get_raw_fingerprint fingerprint
  let min_index := min index_1 index_2
  decide ((raw_fingerprint, min_index) ∈ F.extra_items) ||
    (List.range F.entries_per_index).any fun bucket_index =>
      bytesMatch (F.fingerprint_vec.get (F.get_vec_index index_1 bucket_index))
          fingerprint ||
        bytesMatch (F.fingerprint_vec.get (F.get_vec_index index_2 bucket_index))
          fingerprint

/-- Rust `CuckooFilter::contains`. -/
def contains (F : CuckooFilter α) (item : α) (fuel : ℕ) : Option Bool :=
  (F.get_fingerprint_and_indexes item fuel).map fun out =>
    F.contains_fingerprint out.1 out.2.1 out.2.2

/-- The `for bucket_index in 0..entries_per_index` loop of
`CuckooFilter::insert_fingerprint`: place the fingerprint in the first
all-zero slot of the bucket; `none` means the bucket is full. -/
def insertFpLoop (F : CuckooFilter α) (fingerprint : List ℕ) (index : ℕ) :
    (bucket_index : ℕ) → Option (CuckooFilter α)
  | bucket_index =>
    if h : bucket_index < F.entries_per_index then
      let vec_index := F.get_vec_index index bucket_index
      if BitArrayVec.allZero (F.fingerprint_vec.get vec_index) then
        some { F with fingerprint_vec := F.fingerprint_vec.set vec_index fingerprint }
      else
        insertFpLoop F fingerprint index (bucket_index + 1)
    else none
  termination_by bucket_index => F.entries_per_index - bucket_index
  decreasing_by omega

/-- Rust `CuckooFilter::insert_fingerprint`. -/
def insert_fingerprint (F : CuckooFilter α) (fingerprint : List ℕ) (index : ℕ) :
    Option (CuckooFilter α) :=
  insertFpLoop F fingerprint index 0

/-- The `for _ in 0..max_kicks` eviction loop of `CuckooFilter::insert`.
`picks` supplies the random `bucket_index` of each iteration (the RNG
oracle); on exhaustion the displaced fingerprint is pushed onto
`extra_items`. -/
def kickLoop (F : CuckooFilter α) (fingerprint : List ℕ) (prev_index index : ℕ)
    (picks : List ℕ) : ℕ → CuckooFilter α
  | 0 =>
    { F with extra_items :=
        F.extra_items ++ [(get_raw_fingerprint fingerprint, min prev_index index)] }
  | kicks + 1 =>
    let bucket_index := picks.getD 0 0
    let vec_index := F.get_vec_index index bucket_index
    let new_fingerprint := F.fingerprint_vec.get vec_index
    let F' := { F with fingerprint_vec := F.fingerprint_vec.set vec_index fingerprint }
    let fingerprint := new_fingerprint
    let prev_index := index
    let index := (prev_index ^^^ get_raw_fingerprint fingerprint) % F'.bucket_len
    match F'.insert_fingerprint fingerprint index with
    | some F'' => F''
    | none => kickLoop F' fingerprint prev_index index (picks.drop 1) kicks

/-- Rust `CuckooFilter::insert`.  `coin` is the RNG's initial bucket
choice; `picks` the RNG's slot choices of the kick loop. -/
def insert (F : CuckooFilter α) (item : α) (fuel : ℕ) (coin : Bool)
    (picks : List ℕ) : Option (CuckooFilter α) :=
  (F.get_fingerprint_and_indexes item fuel).map fun out =>
    let fingerprint := out.1
    let index_1 := out.2.1
    let index_2 := out.2.2
    if F.contains_fingerprint fingerprint index_1 index_2 then F
    else
      match F.insert_fingerprint fingerprint index_1 with
      | some F' => F'
      | none =>
        match F.insert_fingerprint fingerprint index_2 with
        | some F' => F'
        | none =>
          let index := if coin then index_1 else index_2
          kickLoop F fingerprint index index picks F.max_kicks

/-- Rust `Vec::swap_remove`: replace element `i` with the last element and
pop the last. -/
def swapRemove (l : List (ℕ × ℕ)) (i : ℕ) : List (ℕ × ℕ) :=
  (l.set i (l.getD (l.length - 1) (0, 0))).dropLast

/-- The `for bucket_index in 0..entries_per_index` loop of
`CuckooFilter::remove_fingerprint`: clear every slot of either bucket that
holds the fingerprint (both reads happen before the writes of the
iteration, as in the source). -/
def removeFpLoop (entries_per_index raw_fingerprint index_1 index_2 : ℕ) :
    CuckooFilter α → (bucket_index : ℕ) → CuckooFilter α
  | F, bucket_index =>
    if h : bucket_index < entries_per_index then
      let vec_index_1 := F.get_vec_index index_1 bucket_index
      let vec_index_2 := F.get_vec_index index_2 bucket_index
      let fingerprint_1 := F.fingerprint_vec.get vec_index_1
      let fingerprint_2 := F.fingerprint_vec.get vec_index_2
      let F' :=
        if get_raw_fingerprint fingerprint_1 = raw_fingerprint then
          { F with fingerprint_vec := F.fingerprint_vec.set vec_index_1 (get_fingerprint 0) }
        else F
      let F'' :=
        if get_raw_fingerprint fingerprint_2 = raw_fingerprint then
          { F' with fingerprint_vec := F'.fingerprint_vec.set vec_index_2 (get_fingerprint 0) }
        else F'
      removeFpLoop entries_per_index raw_fingerprint index_1 index_2 F'' (bucket_index + 1)
    else F
  termination_by F bucket_index => entries_per_index - bucket_index
  decreasing_by omega

/-- Rust `CuckooFilter::remove_fingerprint` (as in the source,
`entries_per_index` is captured once before the loop). -/
def remove_fingerprint (F : CuckooFilter α) (fingerprint : List ℕ)
    (index_1 index_2 : ℕ) : CuckooFilter α :=
  let raw_fingerprint := get_raw_fingerprint fingerprint
  let min_index := min index_1 index_2
  let entries_per_index := F.entries_per_index
  let F' :=
    match F.extra_items.findIdx? (fun item => item == (raw_fingerprint, min_index)) with
    | some i => { F with extra_items := swapRemove F.extra_items i }
    | none => F
  removeFpLoop entries_per_index raw_fingerprint index_1 index_2 F' 0

/-- Rust `CuckooFilter::remove`. -/
def remove (F : CuckooFilter α) (item : α) (fuel : ℕ) : Option (CuckooFilter α) :=
  (F.get_fingerprint_and_indexes item fuel).map fun out =>
    F.remove_fingerprint out.1 out.2.1 out.2.2

/-- Rust `CuckooFilter::clear`. -/
def clear (F : CuckooFilter α) : CuckooFilter α :=
  { F with fingerprint_vec := F.fingerprint_vec.clear, extra_items := [] }

/-- Rust `usize::next_power_of_two`: the smallest power of two that is
greater than or equal to `n` (with `0` and `1` both mapping to `1`),
embedded with structural doubling so that it is kernel-computable. -/
def next_power_of_two (n : ℕ) : ℕ := npow2go n n 1 where
  npow2go (n : ℕ) : ℕ → ℕ → ℕ
    | 0, acc => acc
    | fuel + 1, acc => if n ≤ acc then acc else npow2go n fuel (2 * acc)

/-- Rust `CuckooFilter::from_parameters_with_hashers` (asserts carried as
hypotheses where needed).  `DEFAULT_MAX_KICKS = 512`. -/
def from_parameters_with_hashers (item_count fingerprint_bit_count entries_per_index : ℕ)
    (h0 h1 : α → ℕ) (hu : ℕ → ℕ) : CuckooFilter α :=
  let exact_bucket_len := (item_count + entries_per_index - 1) / entries_per_index
  let bucket_len := next_power_of_two exact_bucket_len
  { max_kicks := 512
    entries_per_index := entries_per_index
    fingerprint_vec := BitArrayVec.new fingerprint_bit_count (bucket_len * entries_per_index)
    extra_items := []
    h0 := h0
    h1 := h1
    hu := hu }

/-- Written from the spec's words, for comparison with the source: the
spec claims `i₂ = (i₁ XOR (H₁(fp) mod bucket_len)) mod bucket_len`, where
`H₁(fp)` hashes the fingerprint *value* through hash builder 1 (`hu1`). -/
def spec_index_2 (hu1 : ℕ → ℕ) (index_1 raw_fingerprint bucket_len : ℕ) : ℕ :=
  (index_1 ^^^ (hu1 raw_fingerprint % bucket_len)) % bucket_len

end CuckooFilter

/-- A concrete `CuckooFilter` over `ℕ` items (for `ℕ` items the item hash
functions are also the `u64` hash functions of the two builders):
4 buckets of 1 slot, 8-bit fingerprints, `h0 = id`, `h1 = (· + 1)`. -/
def cuckooC3 : CuckooFilter ℕ :=
  CuckooFilter.from_parameters_with_hashers 4 8 1
    (fun n => n) (fun n => n + 1) (fun n => n + 1)

/-! ## `src/count_min_sketch.rs` : `CountMinSketch` with `CountMinStrategy`

The grid is a row-major `Vec<i64>` of `rows * cols` cells.  Release-mode
`+=` on `i64` wraps around two's complement. -/

/-- Rust release-mode `i64` wrap-around addition result: reduce an
unbounded integer into `[-2^63, 2^63)` two's-complement style. -/
def wrap64 (z : ℤ) : ℤ := (z + 2 ^ 63) % 2 ^ 64 - 2 ^ 63

/-- Rust `CountMinSketch<CountMinStrategy, U, B>`: the `rows * cols`
row-major `i64` grid, the wrapping total `items`, and the two `u64` hash
functions of the `DoubleHasher`'s builders (the `T = CountMinStrategy`
and hasher-builder type parameters are fixed by the fields). -/
structure CountMinSketch (α : Type) where
  rows : ℕ
  cols : ℕ
  items : ℤ
  grid : List ℤ
  h0 : α → ℕ
  h1 : α → ℕ

namespace CountMinSketch

variable {α : Type}

/-- Rust `CountMinSketch::with_hashers(rows, cols, hash_builders)`:
`items = 0` and `grid = vec![0; rows * cols]`. -/
def with_hashers (rows cols : ℕ) (h0 h1 : α → ℕ) : CountMinSketch α :=
  { rows := rows
    cols := cols
    items := 0
    grid := List.replicate (rows * cols) 0
    h0 := h0
    h1 := h1 }

/-- The grid index selected for `item` in `row`:
`row * cols + (hash % cols)`, where `hash` is the `row`-th element of
`DoubleHasher::hash(item)`, i.e. of `HashIter { a: H0(item), b: H1(item),
c: 0 }`.  Both `insert` and `ItemValueIter` compute exactly this index. -/
def cell (s : CountMinSketch α) (item : α) (row : ℕ) : ℕ :=
  row * s.cols + HashIter.nth (HashIter.init (s.h0 item) (s.h1 item)) row % s.cols

/-- Rust `CountMinSketch::insert(item, value)`: wrap-adds `value` to
`items` and, for each of the `rows` hashes of `item`, to the grid cell
`row * cols + (hash % cols)` (`% cols` panics if `cols = 0`; theorems
assume `0 < cols`). -/
def insert (s : CountMinSketch α) (item : α) (value : ℤ) : CountMinSketch α :=
  { s with
    items := wrap64 (s.items + value)
    grid := (List.range s.rows).foldl
      (fun g row => g.set (s.cell item row) (wrap64 (g.getD (s.cell item row) 0 + value)))
      s.grid }

/-- Rust `CountMinSketch::remove(item, value)` is `insert(item, -value)`. -/
def remove (s : CountMinSketch α) (item : α) (value : ℤ) : CountMinSketch α :=
  s.insert item (-value)

/-- Rust `ItemValueIter`: the grid values at `item`'s cell in each of the
`rows` rows, in row order. -/
def itemValues (s : CountMinSketch α) (item : α) : List ℤ :=
  (List.range s.rows).map (fun row => s.grid.getD (s.cell item row) 0)

/-- Rust `CountMinSketch::<CountMinStrategy, _>::count(item)`:
`CountMinStrategy::get_estimate` takes the minimum of `ItemValueIter`;
`Iterator::min` is `None` on an empty iterator (`rows = 0`), where the
`expect` panics — modelled as `none`. -/
def count (s : CountMinSketch α) (item : α) : Option ℤ :=
  match s.itemValues item with
  | [] => none
  | x :: xs => some (xs.foldl min x)

/-- A sequence of `insert(item, value)` calls, applied left to right. -/
def applyInserts (s : CountMinSketch α) (ops : List (α × ℤ)) : CountMinSketch α :=
  ops.foldl (fun t p => t.insert p.1 p.2) s

/-- The total value inserted across a sequence of `insert` calls. -/
def totalOf (ops : List (α × ℤ)) : ℤ := (ops.map Prod.snd).sum

/-- The total value inserted for one particular item. -/
def sumFor [DecidableEq α] (x : α) (ops : List (α × ℤ)) : ℤ :=
  ((ops.filter fun p => p.1 = x).map Prod.snd).sum

end CountMinSketch

/-- A concrete 1-row, 1-column `CountMinSketch` over `ℕ` items with
constant hash functions. -/
def cmsC9 : CountMinSketch ℕ :=
  CountMinSketch.with_hashers 1 1 (fun _ => 0) (fun _ => 0)

/-- Three inserts of `2^62` for item `0`: their exact sum `3 * 2^62`
overflows `i64`. -/
def cmsOpsC9 : List (ℕ × ℤ) := [(0, 2 ^ 62), (0, 2 ^ 62), (0, 2 ^ 62)]

/-! ## Theorems -/

/-! ### List helpers -/

theorem getD_set_self {l : List ℕ} {n : ℕ} (h : n < l.length) (a d : ℕ) :
    (l.set n a).getD n d = a := by
  simp [List.getD, List.getElem?_set_self, h]

theorem getD_set_ne {l : List ℕ} {m n : ℕ} (h : m ≠ n) (a d : ℕ) :
    (l.set n a).getD m d = l.getD m d := by
  simp [List.getD, List.getElem?_set_ne (Ne.symm h)]

theorem getD_set_self_int {l : List ℤ} {n : ℕ} (h : n < l.length) (a d : ℤ) :
    (l.set n a).getD n d = a := by
  simp [List.getD, List.getElem?_set_self, h]

theorem getD_set_ne_int {l : List ℤ} {m n : ℕ} (h : m ≠ n) (a d : ℤ) :
    (l.set n a).getD m d = l.getD m d := by
  simp [List.getD, List.getElem?_set_ne (Ne.symm h)]

theorem getD_take {l : List ℕ} {n k : ℕ} (h : k < n) (d : ℕ) :
    (l.take n).getD k d = l.getD k d := by
  simp [List.getD, List.getElem?_take, h]

theorem getD_replicate_zero {m k : ℕ} : (List.replicate m 0).getD k 0 = 0 := by
  rcases Nat.lt_or_ge k m with hk | hk
  · rw [List.getD_eq_getElem _ _ (by simpa using hk)]
    simp
  · rw [List.getD_eq_default _ _ (by simpa using hk)]

theorem getD_append_replicate_zero {l : List ℕ} {m k : ℕ} :
    (l ++ List.replicate m 0).getD k 0 = l.getD k 0 := by
  rcases Nat.lt_or_ge k l.length with hk | hk
  · rw [List.getD_eq_getElem _ _ hk, List.getD_eq_getElem _ _ (by simp; omega)]
    simp [List.getElem_append_left hk]
  · rw [List.getD_eq_default _ _ hk]
    rcases Nat.lt_or_ge k (l.length + m) with hk2 | hk2
    · rw [List.getD_eq_getElem _ _ (by simp; omega)]
      rw [List.getElem_append_right (by omega)]
      simp
    · rw [List.getD_eq_default _ _ (by simp; omega)]

/-! ### `BitstringVec.get` and `BitstringVec.set` against the bit-level view -/

namespace BitstringVec

theorem getMask_eq (s : ℕ) : getMask s = 2 ^ s - 1 := by
  unfold getMask
  split
  · subst ‹s = 64›; rfl
  · rfl

theorem getD_lt {v : BitstringVec} (hbl : ∀ b ∈ v.blocks, b < U64) (k : ℕ) :
    v.blocks.getD k 0 < 2 ^ 64 := by
  rcases Nat.lt_or_ge k v.blocks.length with hk | hk
  · rw [List.getD_eq_getElem _ _ hk]
    exact hbl _ (v.blocks.getElem_mem hk)
  · rw [List.getD_eq_default _ _ hk]
    positivity

/-- Bit-level behaviour of the two-word window read performed by
`BitstringVec::get`, stated on plain words `X` (word `table_index`) and
`Y` (word `table_index + 1`). -/
theorem read_window_testBit (X Y w bi j : ℕ) (hle : w ≤ 64) (hbi : bi < 64)
    (hX : X < 2 ^ 64) :
    (if 64 < w + bi then
        ((X >>> bi) &&& (2 ^ w - 1)) |||
          ((Y &&& (2 ^ (w + bi - 64) - 1)) <<< (w - (w + bi - 64)))
      else (X >>> bi) &&& (2 ^ w - 1)).testBit j
    = if j < w then
        (if bi + j < 64 then X.testBit (bi + j) else Y.testBit (bi + j - 64))
      else false := by
  split
  · rename_i hstrad
    simp only [Nat.testBit_lor, Nat.testBit_land, Nat.testBit_shiftLeft,
      Nat.testBit_shiftRight, Nat.testBit_two_pow_sub_one]
    rcases Nat.lt_or_ge j w with hj | hj
    · rcases Nat.lt_or_ge (bi + j) 64 with hb | hb
      · have h1 : ¬ (j ≥ w - (w + bi - 64)) := by omega
        simp [hj, hb, h1]
      · have hlo : X.testBit (bi + j) = false :=
          Nat.testBit_eq_false_of_lt
            (lt_of_lt_of_le hX (Nat.pow_le_pow_right (by norm_num) hb))
        have h1 : j ≥ w - (w + bi - 64) := by omega
        have h2 : j - (w - (w + bi - 64)) = bi + j - 64 := by omega
        have h3 : bi + j - 64 < w + bi - 64 := by omega
        simp [hj, hlo, h1, h2, h3, Nat.not_lt.mpr hb]
    · have h2 : ¬ (j - (w - (w + bi - 64)) < w + bi - 64) := by omega
      simp [Nat.not_lt.mpr hj, h2]
  · rename_i hstrad
    simp only [Nat.testBit_land, Nat.testBit_shiftRight, Nat.testBit_two_pow_sub_one]
    rcases Nat.lt_or_ge j w with hj | hj
    · have hb : bi + j < 64 := by omega
      simp [hj, hb]
    · simp [Nat.not_lt.mpr hj]

/-- Bit-level characterisation of `BitstringVec::get`: bit `j` of the value
read at slot `i` is bit `i * bit_count + j` of the packed word sequence,
for `j < bit_count`, and `0` above. -/
theorem get_testBit (v : BitstringVec) (hle : v.bit_count ≤ 64)
    (hbl : ∀ b ∈ v.blocks, b < U64) (i j : ℕ) :
    (v.get i).testBit j
      = (decide (j < v.bit_count) && blockBit v.blocks (i * v.bit_count + j)) := by
  have hB := @getD_lt v hbl
  have key := read_window_testBit (v.blocks.getD (i * v.bit_count / 64) 0)
    (v.blocks.getD (i * v.bit_count / 64 + 1) 0) v.bit_count
    (i * v.bit_count % 64) j hle (Nat.mod_lt _ (by norm_num))
    (by simpa [U64] using hB (i * v.bit_count / 64))
  have hget : (v.get i).testBit j
      = (if 64 < v.bit_count + i * v.bit_count % 64 then
          ((v.blocks.getD (i * v.bit_count / 64) 0 >>> (i * v.bit_count % 64)) &&&
              (2 ^ v.bit_count - 1)) |||
            ((v.blocks.getD (i * v.bit_count / 64 + 1) 0 &&&
                (2 ^ (v.bit_count + i * v.bit_count % 64 - 64) - 1)) <<<
              (v.bit_count - (v.bit_count + i * v.bit_count % 64 - 64)))
        else (v.blocks.getD (i * v.bit_count / 64) 0 >>> (i * v.bit_count % 64)) &&&
          (2 ^ v.bit_count - 1)).testBit j := by
    unfold get
    simp only [getMask_eq]
  rw [hget, key]
  unfold blockBit
  have hdm : 64 * (i * v.bit_count / 64) + i * v.bit_count % 64 = i * v.bit_count :=
    Nat.div_add_mod _ 64
  have hbi : i * v.bit_count % 64 < 64 := Nat.mod_lt _ (by norm_num)
  rcases Nat.lt_or_ge j v.bit_count with hj | hj
  · rcases Nat.lt_or_ge (i * v.bit_count % 64 + j) 64 with hb | hb
    · have e1 : (i * v.bit_count + j) / 64 = i * v.bit_count / 64 := by omega
      have e2 : (i * v.bit_count + j) % 64 = i * v.bit_count % 64 + j := by omega
      simp [hj, hb, e1, e2]
    · have e1 : (i * v.bit_count + j) / 64 = i * v.bit_count / 64 + 1 := by omega
      have e2 : (i * v.bit_count + j) % 64 = i * v.bit_count % 64 + j - 64 := by omega
      simp [hj, Nat.not_lt.mpr hb, e1, e2]
  · simp [Nat.not_lt.mpr hj]

/-- Value bound for `BitstringVec::get`: the read value fits in the slot
width. -/
theorem get_lt (v : BitstringVec) (hle : v.bit_count ≤ 64)
    (hbl : ∀ b ∈ v.blocks, b < U64) (i : ℕ) :
    v.get i < 2 ^ v.bit_count := by
  refine Nat.lt_pow_two_of_testBit _ fun j hj => ?_
  rw [get_testBit v hle hbl i j]
  simp [Nat.not_lt.mpr hj]

/-- Bit-level behaviour of the first word written by `BitstringVec::set`:
bits `bi..bi+w` are taken from the value, the rest keep the old word. -/
theorem write_word0_testBit (X x w bi m : ℕ) (hle : w ≤ 64) (hbi : bi < 64)
    (hx : x < 2 ^ w) (hm : m < 64) :
    (((X &&& notU64 ((2 ^ w - 1) <<< bi % U64)) ||| (x <<< bi)) % U64).testBit m
      = if bi ≤ m ∧ m < bi + w then x.testBit (m - bi) else X.testBit m := by
  have hU : U64 = 2 ^ 64 := rfl
  simp only [hU, notU64, Nat.testBit_mod_two_pow, Nat.testBit_lor, Nat.testBit_land,
    Nat.testBit_xor, Nat.testBit_shiftLeft, Nat.testBit_two_pow_sub_one, hm,
    decide_eq_true hm, Bool.true_and]
  rcases Nat.lt_or_ge m bi with h1 | h1
  · have h2 : ¬ (bi ≤ m ∧ m < bi + w) := by omega
    simp [Nat.not_le.mpr h1, h2]
  · rcases Nat.lt_or_ge m (bi + w) with h3 | h3
    · have h4 : m - bi < w := by omega
      simp [h1, h3, h4]
    · have h4 : ¬ (m - bi < w) := by omega
      have h5 : x.testBit (m - bi) = false :=
        Nat.testBit_eq_false_of_lt
          (lt_of_lt_of_le hx (Nat.pow_le_pow_right (by norm_num) (by omega)))
      have h6 : ¬ (m < bi + w) := by omega
      simp [h1, h4, h5, h6]

/-- Bit-level behaviour of the second word written by a straddling
`BitstringVec::set`: the low `w + bi - 64` bits are the high bits of the
value, the rest keep the old word. -/
theorem write_word1_testBit (Y x w bi m : ℕ) (hstrad : 64 < w + bi)
    (hle : w ≤ 64) (hbi : bi < 64) (hx : x < 2 ^ w) (hm : m < 64) :
    (((Y &&& notU64 (2 ^ (w + bi - 64) - 1)) ||| (x >>> (w - (w + bi - 64)))) % U64).testBit m
      = if m < w + bi - 64 then x.testBit (w - (w + bi - 64) + m) else Y.testBit m := by
  have hU : U64 = 2 ^ 64 := rfl
  simp only [hU, notU64, Nat.testBit_mod_two_pow, Nat.testBit_lor, Nat.testBit_land,
    Nat.testBit_xor, Nat.testBit_shiftRight, Nat.testBit_two_pow_sub_one,
    decide_eq_true hm, Bool.true_and]
  rcases Nat.lt_or_ge m (w + bi - 64) with h1 | h1
  · simp [h1, hm]
  · have h2 : x.testBit (w - (w + bi - 64) + m) = false :=
      Nat.testBit_eq_false_of_lt
        (lt_of_lt_of_le hx (Nat.pow_le_pow_right (by norm_num) (by omega)))
    simp [Nat.not_lt.mpr h1, h2, hm]

theorem set_bit_count (v : BitstringVec) (i x : ℕ) :
    (v.set i x).bit_count = v.bit_count := rfl

theorem set_len (v : BitstringVec) (i x : ℕ) : (v.set i x).len = v.len := rfl

theorem set_blocks_length (v : BitstringVec) (i x : ℕ) :
    (v.set i x).blocks.length = v.blocks.length := by
  unfold set
  dsimp only
  split <;> simp

theorem set_blocks_lt (v : BitstringVec) (i x : ℕ)
    (hbl : ∀ b ∈ v.blocks, b < U64) :
    ∀ b ∈ (v.set i x).blocks, b < U64 := by
  have hU : (0 : ℕ) < U64 := by norm_num [U64]
  unfold set
  dsimp only
  split
  · intro b hb
    rcases List.mem_or_eq_of_mem_set hb with hb' | rfl
    · rcases List.mem_or_eq_of_mem_set hb' with hb'' | rfl
      · exact hbl _ hb''
      · exact Nat.mod_lt _ hU
    · exact Nat.mod_lt _ hU
  · intro b hb
    rcases List.mem_or_eq_of_mem_set hb with hb' | rfl
    · exact hbl _ hb'
    · exact Nat.mod_lt _ hU

/-- Bit-level characterisation of `BitstringVec::set`: the packed word
sequence changes exactly on the bit window `[i*w, i*w + w)`, which now
holds the bits of the written value. -/
theorem set_blockBit (v : BitstringVec) (i x : ℕ) (hw : 0 < v.bit_count)
    (hle : v.bit_count ≤ 64) (hx : x < 2 ^ v.bit_count)
    (hfit : i * v.bit_count + v.bit_count ≤ 64 * v.blocks.length) (n : ℕ) :
    blockBit (v.set i x).blocks n
      = if i * v.bit_count ≤ n ∧ n < i * v.bit_count + v.bit_count then
          x.testBit (n - i * v.bit_count)
        else blockBit v.blocks n := by
  have hbi : i * v.bit_count % 64 < 64 := Nat.mod_lt _ (by norm_num)
  have hdm : 64 * (i * v.bit_count / 64) + i * v.bit_count % 64 = i * v.bit_count :=
    Nat.div_add_mod _ 64
  have hn : 64 * (n / 64) + n % 64 = n := Nat.div_add_mod _ 64
  have hm : n % 64 < 64 := Nat.mod_lt _ (by norm_num)
  have hti : i * v.bit_count / 64 < v.blocks.length := by omega
  unfold set blockBit
  dsimp only
  simp only [getMask_eq]
  split
  · rename_i hstrad
    have hti1 : i * v.bit_count / 64 + 1 < v.blocks.length := by omega
    by_cases hk1 : n / 64 = i * v.bit_count / 64
    · rw [hk1, getD_set_ne (by omega), getD_set_self hti,
        write_word0_testBit _ _ _ _ _ hle hbi hx hm]
      by_cases hwin : i * v.bit_count ≤ n ∧ n < i * v.bit_count + v.bit_count
      · rw [if_pos (by omega), if_pos hwin]
        congr 1
        omega
      · rw [if_neg (by omega), if_neg hwin]
    · by_cases hk2 : n / 64 = i * v.bit_count / 64 + 1
      · have hlen : i * v.bit_count / 64 + 1 <
            (v.blocks.set (i * v.bit_count / 64)
              ((v.blocks.getD (i * v.bit_count / 64) 0 &&&
                    notU64 ((2 ^ v.bit_count - 1) <<< (i * v.bit_count % 64) % U64) |||
                  x <<< (i * v.bit_count % 64)) % U64)).length := by
          simpa using hti1
        rw [hk2, getD_set_ne (show i * v.bit_count / 64 + 1 ≠ i * v.bit_count / 64 by omega),
          getD_set_self hlen,
          write_word1_testBit _ _ _ _ _ hstrad hle hbi hx hm]
        by_cases hwin : i * v.bit_count ≤ n ∧ n < i * v.bit_count + v.bit_count
        · rw [if_pos (by omega), if_pos hwin]
          congr 1
          omega
        · rw [if_neg (by omega), if_neg hwin]
      · rw [getD_set_ne hk2, getD_set_ne hk1, if_neg (by omega)]
  · rename_i hstrad
    by_cases hk1 : n / 64 = i * v.bit_count / 64
    · rw [hk1, getD_set_self hti, write_word0_testBit _ _ _ _ _ hle hbi hx hm]
      by_cases hwin : i * v.bit_count ≤ n ∧ n < i * v.bit_count + v.bit_count
      · rw [if_pos (by omega), if_pos hwin]
        congr 1
        omega
      · rw [if_neg (by omega), if_neg hwin]
    · rw [getD_set_ne hk1, if_neg (by omega)]

theorem le_64_mul_getBlockCount (w len : ℕ) :
    w * len ≤ 64 * getBlockCount w len := by
  unfold getBlockCount
  omega

theorem getBlockCount_mono (w : ℕ) {m n : ℕ} (h : m ≤ n) :
    getBlockCount w m ≤ getBlockCount w n := by
  unfold getBlockCount
  have : w * m ≤ w * n := Nat.mul_le_mul_left _ h
  omega

theorem fit_of_lt (w len i : ℕ) (hi : i < len) :
    i * w + w ≤ 64 * getBlockCount w len := by
  have h1 : (i + 1) * w ≤ len * w := Nat.mul_le_mul_right _ (by omega)
  calc i * w + w = (i + 1) * w := by ring
    _ ≤ len * w := h1
    _ = w * len := by ring
    _ ≤ 64 * getBlockCount w len := le_64_mul_getBlockCount w len

/-- Reading back the slot just written by `set` yields the written value. -/
theorem get_set_self (v : BitstringVec) (i x : ℕ) (hw : 0 < v.bit_count)
    (hle : v.bit_count ≤ 64) (hbl : ∀ b ∈ v.blocks, b < U64)
    (hx : x < 2 ^ v.bit_count)
    (hfit : i * v.bit_count + v.bit_count ≤ 64 * v.blocks.length) :
    (v.set i x).get i = x := by
  refine Nat.eq_of_testBit_eq fun j => ?_
  rw [get_testBit (v.set i x) (by rw [set_bit_count]; exact hle)
    (set_blocks_lt _ _ _ hbl) i j]
  simp only [set_bit_count]
  rw [set_blockBit v i x hw hle hx hfit]
  rcases Nat.lt_or_ge j v.bit_count with hj | hj
  · rw [if_pos (by omega)]
    simp [hj]
  · rw [if_neg (by omega)]
    simp [Nat.not_lt.mpr hj,
      Nat.testBit_eq_false_of_lt
        (lt_of_lt_of_le hx (Nat.pow_le_pow_right (by norm_num) hj))]

/-- Frame property of `set`: every other slot is unchanged. -/
theorem get_set_ne (v : BitstringVec) (i j x : ℕ) (hw : 0 < v.bit_count)
    (hle : v.bit_count ≤ 64) (hbl : ∀ b ∈ v.blocks, b < U64)
    (hx : x < 2 ^ v.bit_count)
    (hfit : i * v.bit_count + v.bit_count ≤ 64 * v.blocks.length)
    (hij : j ≠ i) :
    (v.set i x).get j = v.get j := by
  refine Nat.eq_of_testBit_eq fun m => ?_
  rw [get_testBit (v.set i x) (by rw [set_bit_count]; exact hle)
    (set_blocks_lt _ _ _ hbl) j m]
  rw [get_testBit v hle hbl j m]
  simp only [set_bit_count]
  rcases Nat.lt_or_ge m v.bit_count with hm | hm
  · have hdisj : ¬ (i * v.bit_count ≤ j * v.bit_count + m ∧
        j * v.bit_count + m < i * v.bit_count + v.bit_count) := by
      rcases Nat.lt_or_ge j i with h | h
      · have h1 : (j + 1) * v.bit_count ≤ i * v.bit_count :=
          Nat.mul_le_mul_right _ h
        rw [Nat.add_mul, one_mul] at h1
        intro hc
        omega
      · have h2 : i < j := by omega
        have h1 : (i + 1) * v.bit_count ≤ j * v.bit_count :=
          Nat.mul_le_mul_right _ h2
        rw [Nat.add_mul, one_mul] at h1
        intro hc
        omega
    rw [set_blockBit v i x hw hle hx hfit, if_neg hdisj]
  · simp [Nat.not_lt.mpr hm]

/-- A `get` only looks at the word sequence (through `getD`) and the slot
width, never at `len`, `occupied_len`, or the word list length itself. -/
theorem get_congr (v v' : BitstringVec) (hbc : v'.bit_count = v.bit_count)
    (hgd : ∀ k, v'.blocks.getD k 0 = v.blocks.getD k 0) (j : ℕ) :
    v'.get j = v.get j := by
  unfold get
  simp only [hbc, hgd]

/-- Truncating the word list does not change the slots that still fit. -/
theorem get_take (v : BitstringVec) (n j : ℕ)
    (h : j * v.bit_count + v.bit_count ≤ 64 * n) (hw : 0 < v.bit_count) :
    BitstringVec.get { v with blocks := v.blocks.take n } j = v.get j := by
  have hdm : 64 * (j * v.bit_count / 64) + j * v.bit_count % 64 = j * v.bit_count :=
    Nat.div_add_mod _ 64
  have hti : j * v.bit_count / 64 < n := by omega
  unfold get
  dsimp only
  split
  · rename_i hstrad
    have hti1 : j * v.bit_count / 64 + 1 < n := by omega
    rw [getD_take hti, getD_take hti1]
  · rw [getD_take hti]

end BitstringVec

/-! ### Counting helper -/

theorem card_filter_update {len i : ℕ} (hi : i < len)
    (p q : ℕ → Prop) [DecidablePred p] [DecidablePred q]
    (hagree : ∀ j < len, j ≠ i → (p j ↔ q j)) :
    ((Finset.range len).filter q).card + (if p i then 1 else 0)
      = ((Finset.range len).filter p).card + (if q i then 1 else 0) := by
  have hmem : i ∈ Finset.range len := Finset.mem_range.mpr hi
  have hins : Finset.range len = insert i ((Finset.range len).erase i) :=
    (Finset.insert_erase hmem).symm
  have hni : i ∉ (Finset.range len).erase i := Finset.not_mem_erase _ _
  have hcong : ((Finset.range len).erase i).filter p
      = ((Finset.range len).erase i).filter q := by
    apply Finset.filter_congr
    intro j hj
    rcases Finset.mem_erase.mp hj with ⟨hne, hjr⟩
    simpa using hagree j (Finset.mem_range.mp hjr) hne
  have hnp : i ∉ ((Finset.range len).erase i).filter p :=
    fun hc => hni (Finset.mem_of_mem_filter _ hc)
  have hnq : i ∉ ((Finset.range len).erase i).filter q :=
    fun hc => hni (Finset.mem_of_mem_filter _ hc)
  rw [hins, Finset.filter_insert, Finset.filter_insert]
  by_cases hp : p i <;> by_cases hq : q i <;>
    simp [hp, hq, Finset.card_insert_of_not_mem, hnp, hnq, hcong]

theorem card_filter_range_succ (n : ℕ) (p : ℕ → Prop) [DecidablePred p] :
    ((Finset.range (n + 1)).filter p).card
      = ((Finset.range n).filter p).card + (if p n then 1 else 0) := by
  have hn : n ∉ (Finset.range n).filter p :=
    fun hc => Finset.not_mem_range_self (Finset.mem_of_mem_filter _ hc)
  rw [Finset.range_succ, Finset.filter_insert]
  by_cases hp : p n <;> simp [hp, Finset.card_insert_of_not_mem, hn]

theorem card_filter_congr_range (n : ℕ) (p q : ℕ → Prop) [DecidablePred p]
    [DecidablePred q] (h : ∀ j < n, (p j ↔ q j)) :
    ((Finset.range n).filter p).card = ((Finset.range n).filter q).card := by
  rw [Finset.filter_congr fun j hj => by simpa using h j (Finset.mem_range.mp hj)]

/-! ### Preservation of `BitstringVec.WF` by every operation -/

namespace BitstringVec

theorem get_new (w len i : ℕ) : (new w len).get i = 0 := by
  unfold get new
  dsimp only
  split <;> simp [getD_replicate_zero]

theorem occSpec_new (w len : ℕ) : occSpec (new w len) = 0 := by
  unfold occSpec
  simp [get_new]

theorem WF_new (w len : ℕ) (hw : 0 < w) (hle : w ≤ 64) : WF (new w len) :=
  ⟨hw, hle, by simp [new], by
    intro b hb
    rw [List.eq_of_mem_replicate hb]
    norm_num [U64], by rw [occSpec_new]; rfl⟩

theorem WF_set (v : BitstringVec) (i x : ℕ) (h : WF v) (hi : i < v.len)
    (hx : x < 2 ^ v.bit_count) : WF (v.set i x) := by
  have hfit : i * v.bit_count + v.bit_count ≤ 64 * v.blocks.length := by
    rw [h.len_blocks]
    exact fit_of_lt _ _ _ hi
  have hsel := get_set_self v i x h.pos h.le64 h.blocks_lt hx hfit
  have hfr : ∀ j, j ≠ i → (v.set i x).get j = v.get j := fun j hj =>
    get_set_ne v i j x h.pos h.le64 h.blocks_lt hx hfit hj
  refine ⟨h.pos, h.le64, ?_, set_blocks_lt _ _ _ h.blocks_lt, ?_⟩
  · simp only [set_blocks_length, set_bit_count, set_len]
    exact h.len_blocks
  · have hocc : (v.set i x).occupied_len =
        if (decide (v.get i = 0) ≠ decide (x = 0)) then
          (if decide (x = 0) = true then v.occupied_len - 1 else v.occupied_len + 1)
        else v.occupied_len := rfl
    have hos : occSpec (v.set i x)
        = ((Finset.range v.len).filter fun j => (v.set i x).get j ≠ 0).card := by
      unfold occSpec
      rw [set_len]
    have hcard := @card_filter_update v.len i hi
      (fun j => v.get j ≠ 0) (fun j => (v.set i x).get j ≠ 0) _ _
      (fun j _ hji => by simp only [hfr j hji])
    have hA := h.occ
    unfold occSpec at hA
    rw [hocc, hos]
    simp only [hsel] at hcard
    by_cases h1 : v.get i = 0 <;> by_cases h2 : x = 0 <;>
      simp [h1, h2, Finset.filter_congr_decidable] at hcard hA ⊢ <;> omega

theorem pop_snd_len (v : BitstringVec) : (v.pop).2.len = v.len - 1 := rfl

theorem pop_snd_bit_count (v : BitstringVec) : (v.pop).2.bit_count = v.bit_count := rfl

theorem get_pop_snd (v : BitstringVec) (j : ℕ) (h : WF v) (hj : j < v.len - 1) :
    (v.pop).2.get j = v.get j := by
  have h1 : (v.pop).2.get j = BitstringVec.get
      { v with blocks := v.blocks.take (getBlockCount v.bit_count (v.len - 1)) } j := rfl
  rw [h1, get_take v _ j (fit_of_lt _ _ _ hj) h.pos]

theorem WF_pop (v : BitstringVec) (h : WF v) (hlen : 0 < v.len) : WF (v.pop).2 := by
  have hmono : getBlockCount v.bit_count (v.len - 1)
      ≤ getBlockCount v.bit_count v.len := getBlockCount_mono _ (by omega)
  refine ⟨h.pos, h.le64, ?_, ?_, ?_⟩
  · show (v.blocks.take (getBlockCount v.bit_count (v.len - 1))).length
      = getBlockCount v.bit_count (v.len - 1)
    rw [List.length_take, h.len_blocks]
    omega
  · intro b hb
    exact h.blocks_lt b (List.take_subset _ _ hb)
  · have hocc : (v.pop).2.occupied_len =
        if v.get (v.len - 1) ≠ 0 then v.occupied_len - 1 else v.occupied_len := rfl
    have hos : occSpec (v.pop).2
        = ((Finset.range (v.len - 1)).filter fun j => (v.pop).2.get j ≠ 0).card := by
      unfold occSpec
      rw [pop_snd_len]
    have hcongr : ((Finset.range (v.len - 1)).filter fun j => (v.pop).2.get j ≠ 0).card
        = ((Finset.range (v.len - 1)).filter fun j => v.get j ≠ 0).card :=
      card_filter_congr_range _ _ _ fun j hj => by rw [get_pop_snd v j h hj]
    have hsplit := card_filter_range_succ (v.len - 1) (fun j => v.get j ≠ 0)
    rw [show v.len - 1 + 1 = v.len by omega] at hsplit
    have hA := h.occ
    unfold occSpec at hA
    rw [hocc, hos, hcongr]
    by_cases h1 : v.get (v.len - 1) = 0 <;>
      simp [h1, Finset.filter_congr_decidable] at hsplit hA hcongr ⊢ <;> omega

theorem push_len (v : BitstringVec) (x : ℕ) : (v.push x).len = v.len + 1 := rfl

theorem push_bit_count (v : BitstringVec) (x : ℕ) :
    (v.push x).bit_count = v.bit_count := rfl

theorem WF_push (v : BitstringVec) (x : ℕ) (h : WF v) (hx : x < 2 ^ v.bit_count) :
    WF (v.push x) := by
  have hnblge : v.blocks.length ≤ getBlockCount v.bit_count (v.len + 1) := by
    rw [h.len_blocks]
    exact getBlockCount_mono _ (by omega)
  have hextlen : (v.blocks ++ List.replicate
        (getBlockCount v.bit_count (v.len + 1) - v.blocks.length) 0).length
      = getBlockCount v.bit_count (v.len + 1) := by
    simp only [List.length_append, List.length_replicate]
    omega
  have hextlt : ∀ b ∈ v.blocks ++ List.replicate
      (getBlockCount v.bit_count (v.len + 1) - v.blocks.length) 0, b < U64 := by
    intro b hb
    rcases List.mem_append.mp hb with hb | hb
    · exact h.blocks_lt b hb
    · rw [List.eq_of_mem_replicate hb]
      norm_num [U64]
  set vext : BitstringVec :=
    { v with
      blocks := v.blocks ++ List.replicate
        (getBlockCount v.bit_count (v.len + 1) - v.blocks.length) 0
      len := v.len + 1 } with hvext
  have hgext : ∀ j, vext.get j = v.get j := fun j =>
    get_congr v vext rfl (fun k => getD_append_replicate_zero) j
  have hfitext : v.len * vext.bit_count + vext.bit_count ≤ 64 * vext.blocks.length := by
    show v.len * v.bit_count + v.bit_count ≤ 64 * _
    rw [show vext.blocks.length = getBlockCount v.bit_count (v.len + 1) from hextlen]
    exact fit_of_lt _ _ _ (Nat.lt_succ_self _)
  have hpush : v.push x = { vext.set v.len x with
      occupied_len := if x ≠ 0 then v.occupied_len + 1 else v.occupied_len } := rfl
  have hget_push : ∀ j, (v.push x).get j = (vext.set v.len x).get j := fun j => rfl
  have hself : (vext.set v.len x).get v.len = x :=
    get_set_self vext v.len x h.pos h.le64 hextlt hx hfitext
  have hfr : ∀ j, j ≠ v.len → (vext.set v.len x).get j = v.get j := fun j hj => by
    rw [get_set_ne vext v.len j x h.pos h.le64 hextlt hx hfitext hj, hgext]
  refine ⟨h.pos, h.le64, ?_, ?_, ?_⟩
  · show (v.push x).blocks.length = _
    rw [hpush]
    show (vext.set v.len x).blocks.length = _
    rw [set_blocks_length]
    exact hextlen
  · show ∀ b ∈ (v.push x).blocks, b < U64
    rw [hpush]
    exact set_blocks_lt _ _ _ hextlt
  · have hocc : (v.push x).occupied_len
        = if x ≠ 0 then v.occupied_len + 1 else v.occupied_len := by rw [hpush]
    have hos : occSpec (v.push x)
        = ((Finset.range (v.len + 1)).filter fun j => (v.push x).get j ≠ 0).card := rfl
    have hsplit := card_filter_range_succ v.len (fun j => (v.push x).get j ≠ 0)
    have hcongr : ((Finset.range v.len).filter fun j => (v.push x).get j ≠ 0).card
        = ((Finset.range v.len).filter fun j => v.get j ≠ 0).card :=
      card_filter_congr_range _ _ _ fun j hj => by
        simp only [hget_push, hfr j (by omega)]
    have hlast : (v.push x).get v.len = x := by rw [hget_push, hself]
    have hA := h.occ
    unfold occSpec at hA
    rw [hocc, hos, hsplit, hcongr, hlast, ← hA]
    by_cases h1 : x = 0 <;> simp [h1]

theorem WF_truncate (v : BitstringVec) (n : ℕ) (h : WF v) : WF (v.truncate n) := by
  suffices H : ∀ d (v : BitstringVec), WF v → v.len - n ≤ d → WF (v.truncate n) from
    H v.len v h (by omega)
  intro d
  induction d with
  | zero =>
      intro v hv hd
      rw [truncate, if_neg (by omega)]
      exact hv
  | succ k ih =>
      intro v hv hd
      rw [truncate]
      by_cases hlt : n < v.len
      · rw [if_pos hlt]
        exact ih _ (WF_pop v hv (by omega)) (by rw [pop_snd_len]; omega)
      · rw [if_neg hlt]
        exact hv

theorem get_clear (v : BitstringVec) (j : ℕ) : (v.clear).get j = 0 := by
  unfold clear get
  dsimp only
  split <;> simp [getD_replicate_zero]

theorem WF_clear (v : BitstringVec) (h : WF v) : WF v.clear := by
  refine ⟨h.pos, h.le64, ?_, ?_, ?_⟩
  · show (List.replicate v.blocks.length 0).length = _
    rw [List.length_replicate]
    exact h.len_blocks
  · intro b hb
    rw [List.eq_of_mem_replicate hb]
    norm_num [U64]
  · show (0 : ℕ) = occSpec v.clear
    unfold occSpec
    simp [get_clear]

theorem WF_applyOp (v : BitstringVec) (op : Op) (h : WF v) (hv : ValidOp v op) :
    WF (applyOp v op) := by
  cases op with
  | set i x => exact WF_set v i x h hv.1 hv.2
  | push x => exact WF_push v x h hv
  | pop => exact WF_pop v h hv
  | truncate n => exact WF_truncate v n h
  | clear => exact WF_clear v h

theorem WF_applyOps (v : BitstringVec) (ops : List Op) (h : WF v)
    (hv : ValidOps v ops) : WF (applyOps v ops) := by
  induction ops generalizing v with
  | nil => exact h
  | cons op ops ih => exact ih _ (WF_applyOp v op h hv.1) hv.2

end BitstringVec

/-- Closed form of the `HashIter` state after `k + 1` steps, from an
arbitrary start state. -/
theorem hashIter_step_iterate (a b c k : ℕ) :
    HashIter.step^[k + 1] ⟨a, b, c⟩ =
      ⟨(a + (k + 1) * b + (k + 1).choose 2 * c + (k + 1).choose 3) % U64,
       (b + (k + 1) * c + (k + 1).choose 2) % U64,
       (c + (k + 1)) % U64⟩ := by
  induction k with
  | zero =>
      simp [HashIter.step, Nat.choose]
  | succ n ih =>
      rw [Function.iterate_succ_apply', ih]
      have h2 : (n + 1 + 1).choose 2 = (n + 1).choose 2 + (n + 1) := by
        simp [Nat.choose_succ_succ, Nat.choose_one_right]
        omega
      have h3 : (n + 1 + 1).choose 3 = (n + 1).choose 3 + (n + 1).choose 2 := by
        simp [Nat.choose_succ_succ]
        omega
      simp only [HashIter.step, HashIter.mk.injEq]
      refine ⟨?_, ?_, ?_⟩
      · rw [← Nat.add_mod]
        congr 1
        rw [h2, h3]
        ring
      · rw [← Nat.add_mod]
        congr 1
        rw [h2]
        ring
      · have : c + (n + 1 + 1) = c + (n + 1) + 1 := by ring
        rw [this, Nat.add_mod (c + (n + 1)) 1]
        norm_num [U64]

/-! ### CuckooFilter index derivation -/

namespace CuckooFilter

set_option maxHeartbeats 1000000 in
/-- Reassembling the eight little-endian bytes of a `u64` fingerprint gives
back the value. -/
theorem get_raw_get_fingerprint (raw : ℕ) (h : raw < U64) :
    get_raw_fingerprint (get_fingerprint raw) = raw := by
  have h255 : (0xFF : ℕ) = 2 ^ 8 - 1 := by norm_num
  show get_raw_fingerprint [raw >>> (0 * 8) &&& 0xFF, raw >>> (1 * 8) &&& 0xFF,
    raw >>> (2 * 8) &&& 0xFF, raw >>> (3 * 8) &&& 0xFF, raw >>> (4 * 8) &&& 0xFF,
    raw >>> (5 * 8) &&& 0xFF, raw >>> (6 * 8) &&& 0xFF, raw >>> (7 * 8) &&& 0xFF] = raw
  unfold get_raw_fingerprint
  simp only [List.enum, List.enumFrom, List.foldl]
  refine Nat.eq_of_testBit_eq fun j => ?_
  simp only [h255, Nat.testBit_lor, Nat.testBit_land, Nat.testBit_shiftLeft,
    Nat.testBit_shiftRight, Nat.testBit_two_pow_sub_one, Nat.zero_testBit]
  rcases Nat.lt_or_ge j 64 with hj | hj
  · interval_cases j <;> simp
  · have hraw : raw.testBit j = false :=
      Nat.testBit_eq_false_of_lt
        (lt_of_lt_of_le h (Nat.pow_le_pow_right (by norm_num) hj))
    have hup : ∀ k, k ≤ 56 → raw.testBit (k + (j - k)) = false := by
      intro k hk
      rw [show k + (j - k) = j by omega, hraw]
    simp [hup 0 (by norm_num), hup 8 (by norm_num), hup 16 (by norm_num),
      hup 24 (by norm_num), hup 32 (by norm_num), hup 40 (by norm_num),
      hup 48 (by norm_num), hup 56 (by norm_num), hraw]

/-- The fingerprint rehash loop yields a non-zero value below
`2^fingerprint_bit_count`. -/
theorem rawFingerprintLoop_some {α : Type} (F : CuckooFilter α)
    (hle : F.fingerprint_bit_count ≤ 64) :
    ∀ (fuel h0v raw : ℕ), F.rawFingerprintLoop fuel h0v = some raw →
      raw ≠ 0 ∧ raw < 2 ^ F.fingerprint_bit_count := by
  have hbound : ∀ y : ℕ,
      ((y <<< (64 - F.fingerprint_bit_count)) % U64) >>> (64 - F.fingerprint_bit_count)
        < 2 ^ F.fingerprint_bit_count := by
    intro y
    rw [Nat.shiftRight_eq_div_pow]
    apply Nat.div_lt_of_lt_mul
    calc (y <<< (64 - F.fingerprint_bit_count)) % U64
        < U64 := Nat.mod_lt _ (by norm_num [U64])
      _ ≤ 2 ^ (64 - F.fingerprint_bit_count) * 2 ^ F.fingerprint_bit_count := by
          unfold U64
          rw [← pow_add]
          exact Nat.pow_le_pow_right (by norm_num) (by omega)
  intro fuel
  induction fuel with
  | zero =>
      intro h0v raw h
      unfold rawFingerprintLoop at h
      dsimp only at h
      split at h
      · rename_i hne
        injection h with h
        subst h
        exact ⟨hne, hbound _⟩
      · simp at h
  | succ fuel ih =>
      intro h0v raw h
      unfold rawFingerprintLoop at h
      dsimp only at h
      split at h
      · rename_i hne
        injection h with h
        subst h
        exact ⟨hne, hbound _⟩
      · exact ih _ _ h

end CuckooFilter

/-- C3 (counterexample): the claim says the second bucket index is
`(i₁ XOR (H₁(fp) mod bucket_len)) mod bucket_len`, with the XOR mask a
*hash* of the fingerprint.  On the concrete filter `cuckooC3` (items are
`ℕ`, i.e. `u64`s, so `h1` *is* builder 1's `u64` hash) and item `7`, the
code derives `(fp, i₁, i₂) = (7, 0, 3)` with `i₂ = (0 XOR 7) % 4 = 3`,
while the claimed formula gives
`(0 XOR ((7+1) % 4)) % 4 = 0 ≠ 3`: the code XORs with the raw fingerprint
value itself, not with a hash of it. -/
theorem cuckoo_index_2_mask_not_hashed :
    cuckooC3.get_fingerprint_and_indexes 7 5
        = some (CuckooFilter.get_fingerprint 7, 0, 3) ∧
      CuckooFilter.spec_index_2 cuckooC3.h1 0
          (CuckooFilter.get_raw_fingerprint (CuckooFilter.get_fingerprint 7))
          cuckooC3.bucket_len ≠ 3 := by
  refine ⟨by decide, by decide⟩

/-- C3 (amended): for every item whose fingerprint derivation resolves,
the second candidate bucket index is
`i₂ = (i₁ XOR fp) mod bucket_len`, where the XOR mask is the raw
fingerprint value itself (not a hash of it); and the identical derivation
(`get_fingerprint_and_indexes`) is the single source of the triple used by
`contains`, `remove`, and `insert`. -/
theorem cuckoo_index_derivation {α : Type} (F : CuckooFilter α) (item : α)
    (fuel : ℕ) (fp : List ℕ) (i1 i2 : ℕ) (hle : F.fingerprint_bit_count ≤ 64)
    (h : F.get_fingerprint_and_indexes item fuel = some (fp, i1, i2)) :
    i2 = (i1 ^^^ CuckooFilter.get_raw_fingerprint fp) % F.bucket_len ∧
    F.contains item fuel = some (F.contains_fingerprint fp i1 i2) ∧
    F.remove item fuel = some (F.remove_fingerprint fp i1 i2) ∧
    ∀ coin picks, F.insert item fuel coin picks = some (
      if F.contains_fingerprint fp i1 i2 then F
      else
        match F.insert_fingerprint fp i1 with
        | some F' => F'
        | none =>
          match F.insert_fingerprint fp i2 with
          | some F' => F'
          | none =>
            F.kickLoop fp (if coin then i1 else i2) (if coin then i1 else i2)
              picks F.max_kicks) := by
  obtain ⟨raw, hraw, hout⟩ := Option.map_eq_some'.mp h
  obtain ⟨hne, hlt⟩ := CuckooFilter.rawFingerprintLoop_some F hle fuel _ raw hraw
  have hrawU : raw < U64 :=
    lt_of_lt_of_le hlt (by unfold U64; exact Nat.pow_le_pow_right (by norm_num) hle)
  have hout2 : (CuckooFilter.get_fingerprint raw, F.h1 item % F.bucket_len,
      (F.h1 item % F.bucket_len ^^^ raw) % F.bucket_len) = (fp, i1, i2) := hout
  injection hout2 with hfp hrest
  injection hrest with hi1 hi2
  refine ⟨?_, ?_, ?_, ?_⟩
  · rw [← hfp, CuckooFilter.get_raw_get_fingerprint raw hrawU, ← hi2, ← hi1]
  · unfold CuckooFilter.contains
    rw [h]
    rfl
  · unfold CuckooFilter.remove
    rw [h]
    rfl
  · intro coin picks
    unfold CuckooFilter.insert
    rw [h]
    rfl

/-- C3 (witness): the amended derivation instantiated on the concrete
filter `cuckooC3` and item `7`. -/
theorem cuckoo_index_derivation_witness :
    (3 : ℕ) = (0 ^^^ CuckooFilter.get_raw_fingerprint
        (CuckooFilter.get_fingerprint 7)) % cuckooC3.bucket_len :=
  (cuckoo_index_derivation cuckooC3 7 5 (CuckooFilter.get_fingerprint 7) 0 3
    (by decide) (by decide)).1

/-- C5 (counterexample): the claim "the `i`-th element yielded by `HashIter`
equals `a + i*b` mod `2^64`" fails at the concrete input `a = 0`, `b = 0`,
`i = 3`: the iterator yields `1` there (`c` keeps growing and feeds back
into `b`), while the claimed formula gives `0`. -/
theorem hashIter_nth_ne_linear :
    HashIter.nth (HashIter.init 0 0) 3 ≠ (0 + 3 * 0) % U64 := by
  decide

/-- C5 (amended): the `i`-th element yielded by `HashIter { a, b, c: 0 }` is
`(a + i*b + C(i,3)) % 2^64` — enhanced double hashing with a binomial
third-order term, not plain `a + i*b`. -/
theorem hashIter_nth_closed (a b : ℕ) (ha : a < U64) (i : ℕ) :
    HashIter.nth (HashIter.init a b) i = (a + i * b + i.choose 3) % U64 := by
  cases i with
  | zero =>
      simp [HashIter.nth, HashIter.init, Nat.mod_eq_of_lt ha, Nat.choose]
  | succ n =>
      show (HashIter.step^[n + 1] ⟨a, b, 0⟩).a = _
      rw [hashIter_step_iterate]
      simp

/-- C5 (witness): the amended closed form, instantiated at
`a = 5`, `b = 7`, `i = 4` (where `C(4,3) = 4`). -/
theorem hashIter_nth_closed_witness :
    (5 : ℕ) < U64 ∧
      HashIter.nth (HashIter.init 5 7) 4 = (5 + 4 * 7 + Nat.choose 4 3) % U64 :=
  ⟨by norm_num [U64], hashIter_nth_closed 5 7 (by norm_num [U64]) 4⟩

/-- C7: a `QuotientFilter` built by `with_hasher q r` has a backing
`BitstringVec` whose slot width is `r + 3` bits, but whose *slot count* is
`(r + 3) * 2^q`, not `2^q`: `with_hasher` computes the total bit length
`slot_bits * 2^q` and passes it to `BitstringVec::new` as the element
count.  At the spec's running example `q = 8`, `r = 4` this gives `1792`
slots instead of `256`. -/
theorem quotientFilter_slot_vec_size :
    (∀ q r : ℕ,
      (QuotientFilter.with_hasher q r).slot_vec.bit_count = r + 3 ∧
      (QuotientFilter.with_hasher q r).slot_vec.len = (r + 3) * 2 ^ q) ∧
    (QuotientFilter.with_hasher 8 4).slot_vec.len = 1792 ∧
    (1792 : ℕ) ≠ 2 ^ 8 := by
  refine ⟨fun q r => ⟨rfl, ?_⟩, by decide, by decide⟩
  show (r + 3) * (1 <<< q) = (r + 3) * 2 ^ q
  rw [Nat.shiftLeft_eq, one_mul]

/-- C4: the cached popcount invariant `count_ones() = #(true bits below len)`
is broken by `truncate` (which never updates `one_count`) and by
`clone_from` (which copies `blocks` and `len` but not `one_count`).
Concretely, `BitVec::from_elem(2, true).truncate(1)` reports `count_ones()
= 2` while holding a single `true` bit, and cloning
`BitVec::from_elem(1, true)` into `BitVec::new(2)` via `clone_from` reports
`count_ones() = 0` while holding one `true` bit. -/
theorem bitVec_popcount_invariant_broken :
    ((BitVec.from_elem 2 true).truncate 1).count_ones = 2 ∧
    BitVec.onesBelowLen ((BitVec.from_elem 2 true).truncate 1) = 1 ∧
    ((BitVec.new 2).clone_from (BitVec.from_elem 1 true)).count_ones = 0 ∧
    BitVec.onesBelowLen ((BitVec.new 2).clone_from (BitVec.from_elem 1 true)) = 1 := by
  refine ⟨?_, ?_, ?_, ?_⟩ <;> decide

/-- C8: `BitstringVec` occupancy invariant.  Starting from `new w n` with
slot width `w` in `1..=64`, after any valid sequence of `set`, `push`,
`pop`, `truncate` and `clear` operations (every written value below `2^w`,
`set` in bounds, `pop` on a non-empty vector), the cached `occupied_len`
equals the number of indices `i < len` whose slot value is non-zero. -/
theorem bitstringVec_occupied_len_invariant (w n : ℕ) (hw : 0 < w) (hle : w ≤ 64)
    (ops : List BitstringVec.Op)
    (hval : BitstringVec.ValidOps (BitstringVec.new w n) ops) :
    (BitstringVec.applyOps (BitstringVec.new w n) ops).occupied_len
      = BitstringVec.occSpec (BitstringVec.applyOps (BitstringVec.new w n) ops) :=
  (BitstringVec.WF_applyOps _ ops (BitstringVec.WF_new w n hw hle) hval).occ

/-- C8 (witness): the invariant instantiated on a concrete 17-bit-wide
vector (slots straddle word boundaries) and a concrete operation
sequence. -/
theorem bitstringVec_occupied_len_invariant_witness :
    ((0 : ℕ) < 17 ∧ (17 : ℕ) ≤ 64 ∧
      BitstringVec.ValidOps (BitstringVec.new 17 3)
        [.set 2 99999, .push 5, .set 0 3, .set 2 0, .pop, .truncate 1]) ∧
    (BitstringVec.applyOps (BitstringVec.new 17 3)
        [.set 2 99999, .push 5, .set 0 3, .set 2 0, .pop, .truncate 1]).occupied_len
      = BitstringVec.occSpec (BitstringVec.applyOps (BitstringVec.new 17 3)
        [.set 2 99999, .push 5, .set 0 3, .set 2 0, .pop, .truncate 1]) :=
  ⟨⟨by decide, by decide, by decide⟩,
    bitstringVec_occupied_len_invariant 17 3 (by decide) (by decide) _ (by decide)⟩

/-- C10: frame property of `BitstringVec::set`.  For every structurally
well-formed vector with slot width `w` in `1..=64`, every `i < len` and
every value `x < 2^w`, after `set i x` the slot `i` reads back `x` and
every other slot `j < len` is unchanged (including slots that straddle a
64-bit word boundary).  The value bound is a necessary precondition: on a
1-bit-wide vector of length 2, writing the oversized value `2` at slot 0
flips the neighbouring slot 1 from `0` to `1`. -/
theorem bitstringVec_set_frame :
    (∀ v : BitstringVec, ∀ i x : ℕ,
        0 < v.bit_count → v.bit_count ≤ 64 →
        v.blocks.length = BitstringVec.getBlockCount v.bit_count v.len →
        (∀ b ∈ v.blocks, b < U64) →
        i < v.len → x < 2 ^ v.bit_count →
        (v.set i x).get i = x ∧
          ∀ j < v.len, j ≠ i → (v.set i x).get j = v.get j) ∧
    (((BitstringVec.new 1 2).set 0 2).get 1 = 1 ∧
      (BitstringVec.new 1 2).get 1 = 0) := by
  refine ⟨fun v i x hw hle hlb hbl hi hx => ?_, by decide, by decide⟩
  have hfit : i * v.bit_count + v.bit_count ≤ 64 * v.blocks.length := by
    rw [hlb]
    exact BitstringVec.fit_of_lt _ _ _ hi
  exact ⟨BitstringVec.get_set_self v i x hw hle hbl hx hfit,
    fun j _ hji => BitstringVec.get_set_ne v i j x hw hle hbl hx hfit hji⟩

/-- C10 (witness): the frame property instantiated on a concrete 17-bit
vector where slot 3 straddles the first word boundary. -/
theorem bitstringVec_set_frame_witness :
    ((BitstringVec.new 17 5).set 3 70000).get 3 = 70000 ∧
      ((BitstringVec.new 17 5).set 3 70000).get 2 = (BitstringVec.new 17 5).get 2 :=
  ⟨(bitstringVec_set_frame.1 (BitstringVec.new 17 5) 3 70000 (by decide) (by decide)
      (by decide) (by decide) (by decide) (by decide)).1,
   (bitstringVec_set_frame.1 (BitstringVec.new 17 5) 3 70000 (by decide) (by decide)
      (by decide) (by decide) (by decide) (by decide)).2 2 (by decide) (by decide)⟩

/-! ### CountMinSketch lemmas (C9) -/

theorem wrap64_eq_self (z : ℤ) (hlo : -2 ^ 63 ≤ z) (hhi : z ≤ 2 ^ 63 - 1) :
    wrap64 z = z := by
  unfold wrap64
  rw [Int.emod_eq_of_lt (by omega) (by omega)]
  omega

theorem getD_replicate_zero_int {m k : ℕ} : (List.replicate m (0 : ℤ)).getD k 0 = 0 := by
  induction m generalizing k with
  | zero => simp [List.getD]
  | succ n ih =>
      cases k with
      | zero => simp [List.replicate, List.getD]
      | succ j => simpa [List.replicate, List.getD] using @ih j

theorem rowcell_div_mod (r off cols : ℕ) (hoff : off < cols) :
    (r * cols + off) / cols = r ∧ (r * cols + off) % cols = off := by
  have hc : 0 < cols := Nat.pos_of_ne_zero (by omega)
  constructor
  · rw [Nat.add_comm, Nat.mul_comm, Nat.add_mul_div_left _ _ hc,
      Nat.div_eq_of_lt hoff, Nat.zero_add]
  · rw [Nat.add_comm, Nat.mul_comm, Nat.add_mul_mod_self_left, Nat.mod_eq_of_lt hoff]

namespace CountMinSketch

variable {α : Type}

theorem insertRows_length (cols : ℕ) (off : ℕ → ℕ) (v : ℤ) :
    ∀ (n : ℕ) (g : List ℤ),
      ((List.range n).foldl
        (fun g row => g.set (row * cols + off row)
          (wrap64 (g.getD (row * cols + off row) 0 + v))) g).length = g.length := by
  intro n
  induction n with
  | zero => intro g; rfl
  | succ m ih =>
      intro g
      rw [List.range_succ, List.foldl_append, List.foldl_cons, List.foldl_nil,
        List.length_set, ih g]

theorem insertRows_getD (cols : ℕ) (off : ℕ → ℕ) (v : ℤ) (hoff : ∀ r, off r < cols) :
    ∀ (n : ℕ) (g : List ℤ) (i : ℕ), i < g.length →
    (((List.range n).foldl
        (fun g row => g.set (row * cols + off row)
          (wrap64 (g.getD (row * cols + off row) 0 + v))) g).getD i 0)
      = if i / cols < n ∧ i % cols = off (i / cols)
        then wrap64 (g.getD i 0 + v) else g.getD i 0 := by
  intro n
  induction n with
  | zero =>
      intro g i _
      simp
  | succ m ih =>
      intro g i hi
      rw [List.range_succ, List.foldl_append, List.foldl_cons, List.foldl_nil]
      have hdm := rowcell_div_mod m (off m) cols (hoff m)
      have hGlen : (((List.range m).foldl
          (fun g row => g.set (row * cols + off row)
            (wrap64 (g.getD (row * cols + off row) 0 + v))) g)).length = g.length :=
        insertRows_length cols off v m g
      by_cases hij : i = m * cols + off m
      · have hidiv : i / cols = m := by rw [hij]; exact hdm.1
        have himod : i % cols = off (i / cols) := by rw [hij, hdm.1]; exact hdm.2
        rw [← hij]
        rw [getD_set_self_int (by omega)]
        rw [ih g i hi, if_neg (by omega), if_pos ⟨by omega, himod⟩]
      · rw [getD_set_ne_int hij]
        rw [ih g i hi]
        have hrec := Nat.div_add_mod i cols
        by_cases hcase : i / cols < m ∧ i % cols = off (i / cols)
        · rw [if_pos hcase, if_pos ⟨by omega, hcase.2⟩]
        · rw [if_neg hcase]
          by_cases hdiv : i / cols = m
          · rw [if_neg]
            intro ⟨_, hmod⟩
            rw [hdiv] at hmod hrec
            rw [Nat.mul_comm] at hrec
            exact hij (by omega)
          · rw [if_neg (by omega)]

theorem insert_rows (s : CountMinSketch α) (item : α) (v : ℤ) :
    (s.insert item v).rows = s.rows := rfl

theorem insert_cols (s : CountMinSketch α) (item : α) (v : ℤ) :
    (s.insert item v).cols = s.cols := rfl

theorem insert_h0 (s : CountMinSketch α) (item : α) (v : ℤ) :
    (s.insert item v).h0 = s.h0 := rfl

theorem insert_h1 (s : CountMinSketch α) (item : α) (v : ℤ) :
    (s.insert item v).h1 = s.h1 := rfl

theorem insert_grid_length (s : CountMinSketch α) (item : α) (v : ℤ) :
    (s.insert item v).grid.length = s.grid.length :=
  insertRows_length s.cols
    (fun r => HashIter.nth (HashIter.init (s.h0 item) (s.h1 item)) r % s.cols) v
    s.rows s.grid

theorem insert_grid_getD (s : CountMinSketch α) (item : α) (v : ℤ)
    (hcols : 0 < s.cols) (i : ℕ) (hi : i < s.grid.length) :
    (s.insert item v).grid.getD i 0
      = if i / s.cols < s.rows ∧
          i % s.cols
            = HashIter.nth (HashIter.init (s.h0 item) (s.h1 item)) (i / s.cols) % s.cols
        then wrap64 (s.grid.getD i 0 + v) else s.grid.getD i 0 :=
  insertRows_getD s.cols
    (fun r => HashIter.nth (HashIter.init (s.h0 item) (s.h1 item)) r % s.cols) v
    (fun _ => Nat.mod_lt _ hcols) s.rows s.grid i hi

theorem applyInserts_cons (s : CountMinSketch α) (p : α × ℤ) (ops : List (α × ℤ)) :
    applyInserts s (p :: ops) = applyInserts (s.insert p.1 p.2) ops := rfl

theorem applyInserts_rows (s : CountMinSketch α) (ops : List (α × ℤ)) :
    (applyInserts s ops).rows = s.rows := by
  induction ops generalizing s with
  | nil => rfl
  | cons p t ih => rw [applyInserts_cons, ih, insert_rows]

theorem applyInserts_cols (s : CountMinSketch α) (ops : List (α × ℤ)) :
    (applyInserts s ops).cols = s.cols := by
  induction ops generalizing s with
  | nil => rfl
  | cons p t ih => rw [applyInserts_cons, ih, insert_cols]

theorem applyInserts_h0 (s : CountMinSketch α) (ops : List (α × ℤ)) :
    (applyInserts s ops).h0 = s.h0 := by
  induction ops generalizing s with
  | nil => rfl
  | cons p t ih => rw [applyInserts_cons, ih, insert_h0]

theorem applyInserts_h1 (s : CountMinSketch α) (ops : List (α × ℤ)) :
    (applyInserts s ops).h1 = s.h1 := by
  induction ops generalizing s with
  | nil => rfl
  | cons p t ih => rw [applyInserts_cons, ih, insert_h1]

theorem applyInserts_grid_length (s : CountMinSketch α) (ops : List (α × ℤ)) :
    (applyInserts s ops).grid.length = s.grid.length := by
  induction ops generalizing s with
  | nil => rfl
  | cons p t ih => rw [applyInserts_cons, ih, insert_grid_length]

theorem totalOf_cons (p : α × ℤ) (ops : List (α × ℤ)) :
    totalOf (p :: ops) = p.2 + totalOf ops := by
  simp [totalOf]

theorem totalOf_nonneg (ops : List (α × ℤ)) (h : ∀ p ∈ ops, 0 ≤ p.2) :
    0 ≤ totalOf ops := by
  induction ops with
  | nil => simp [totalOf]
  | cons p t ih =>
      rw [totalOf_cons]
      have := h p (List.mem_cons_self p t)
      have := ih (fun q hq => h q (List.mem_cons_of_mem p hq))
      omega

theorem sumFor_cons [DecidableEq α] (x : α) (p : α × ℤ) (ops : List (α × ℤ)) :
    sumFor x (p :: ops) = (if p.1 = x then p.2 else 0) + sumFor x ops := by
  by_cases h : p.1 = x <;> simp [sumFor, List.filter_cons, h]

theorem applyInserts_cons_pair (s : CountMinSketch α) (y : α) (v : ℤ)
    (ops : List (α × ℤ)) :
    applyInserts s ((y, v) :: ops) = applyInserts (s.insert y v) ops := rfl

theorem applyInserts_cell_bounds [DecidableEq α] :
    ∀ (ops : List (α × ℤ)) (s : CountMinSketch α) (i : ℕ),
      0 < s.cols → s.grid.length = s.rows * s.cols → i < s.rows * s.cols →
      (∀ p ∈ ops, 0 ≤ p.2) →
      0 ≤ s.grid.getD i 0 →
      s.grid.getD i 0 + totalOf ops ≤ 2 ^ 63 - 1 →
      (s.grid.getD i 0 ≤ (applyInserts s ops).grid.getD i 0 ∧
        (applyInserts s ops).grid.getD i 0 ≤ s.grid.getD i 0 + totalOf ops) ∧
      ∀ x : α,
        i % s.cols
          = HashIter.nth (HashIter.init (s.h0 x) (s.h1 x)) (i / s.cols) % s.cols →
        s.grid.getD i 0 + sumFor x ops ≤ (applyInserts s ops).grid.getD i 0 := by
  intro ops
  induction ops with
  | nil =>
      intro s i _ _ _ _ _ _
      refine ⟨⟨le_refl _, ?_⟩, fun x _ => ?_⟩
      · simp [applyInserts, totalOf]
      · simp [applyInserts, sumFor]
  | cons p rest ih =>
      intro s i hc hlen hi hnn hge htot
      obtain ⟨y, v⟩ := p
      have hv : (0 : ℤ) ≤ v := hnn (y, v) (List.mem_cons_self _ _)
      have hrn : ∀ q ∈ rest, (0 : ℤ) ≤ q.2 :=
        fun q hq => hnn q (List.mem_cons_of_mem _ hq)
      have htr : (0 : ℤ) ≤ totalOf rest := totalOf_nonneg rest hrn
      rw [totalOf_cons] at htot
      have hwrap : wrap64 (s.grid.getD i 0 + v) = s.grid.getD i 0 + v :=
        wrap64_eq_self _ (by omega) (by omega)
      have hchar := insert_grid_getD s y v hc i (by omega)
      have key : (s.insert y v).grid.getD i 0 = s.grid.getD i 0 + v ∨
          (s.insert y v).grid.getD i 0 = s.grid.getD i 0 := by
        rw [hchar]
        split
        · exact Or.inl hwrap
        · exact Or.inr rfl
      have hcle : s.grid.getD i 0 ≤ (s.insert y v).grid.getD i 0 := by
        rcases key with hk | hk <;> omega
      have hcub : (s.insert y v).grid.getD i 0 ≤ s.grid.getD i 0 + v := by
        rcases key with hk | hk <;> omega
      have hlen' : (s.insert y v).grid.length
          = (s.insert y v).rows * (s.insert y v).cols := by
        rw [insert_grid_length, insert_rows, insert_cols]
        exact hlen
      have hi' : i < (s.insert y v).rows * (s.insert y v).cols := by
        rw [insert_rows, insert_cols]
        exact hi
      obtain ⟨⟨h1, h2⟩, h3⟩ := ih (s.insert y v) i hc hlen' hi' hrn (by omega) (by omega)
      rw [applyInserts_cons_pair]
      refine ⟨⟨le_trans hcle h1, ?_⟩, fun x hx => ?_⟩
      · rw [totalOf_cons]
        omega
      · rw [sumFor_cons]
        have hrec := h3 x hx
        by_cases hyx : y = x
        · have hcond : i / s.cols < s.rows ∧
              i % s.cols = HashIter.nth
                (HashIter.init (s.h0 y) (s.h1 y)) (i / s.cols) % s.cols := by
            refine ⟨Nat.div_lt_of_lt_mul (by rw [Nat.mul_comm]; exact hi), ?_⟩
            rw [hyx]
            exact hx
          have hk : (s.insert y v).grid.getD i 0 = s.grid.getD i 0 + v := by
            rw [hchar, if_pos hcond, hwrap]
          rw [if_pos hyx]
          omega
        · rw [if_neg hyx]
          omega

end CountMinSketch

/-! ### QuotientFilter lemmas (C1, C2, C6) -/

theorem or_and_mask_ne_zero {x m : ℕ} (y : ℕ) (h : x &&& m ≠ 0) :
    (x ||| y) &&& m ≠ 0 := by
  intro h0
  apply h
  apply Nat.eq_of_testBit_eq
  intro i
  have hi := congrArg (fun z => Nat.testBit z i) h0
  simp only [Nat.testBit_and, Nat.testBit_or, Nat.zero_testBit] at hi ⊢
  cases hx : x.testBit i <;> cases hm : m.testBit i <;> simp_all

theorem or_lt_two_pow {x y n : ℕ} (hx : x < 2 ^ n) (hy : y < 2 ^ n) :
    x ||| y < 2 ^ n := by
  refine Nat.lt_pow_two_of_testBit _ fun j hj => ?_
  have hxj : x.testBit j = false :=
    Nat.testBit_eq_false_of_lt
      (lt_of_lt_of_le hx (Nat.pow_le_pow_right (by norm_num) hj))
  have hyj : y.testBit j = false :=
    Nat.testBit_eq_false_of_lt
      (lt_of_lt_of_le hy (Nat.pow_le_pow_right (by norm_num) hj))
  simp [Nat.testBit_lor, hxj, hyj]

namespace QuotientFilter

theorem capacity_pos (f : QuotientFilter) : 0 < f.capacity := by
  unfold capacity
  rw [Nat.shiftLeft_eq, one_mul]
  exact Nat.two_pow_pos _

theorem increment_index_lt (f : QuotientFilter) (i : ℕ) (hi : i < f.capacity) :
    f.increment_index i < f.capacity := by
  unfold increment_index
  split
  · exact f.capacity_pos
  · omega

theorem shiftRightLoop_succ (n : ℕ) (f : QuotientFilter) (index curr : ℕ) :
    shiftRightLoop (n + 1) f index curr =
      (let next_slot := f.slot_vec.get index
       let pair :=
         if next_slot &&& 4 ≠ 0 then
           (next_slot &&& BitstringVec.notU64 4, curr ||| 4)
         else (next_slot, curr)
       let f' := { f with slot_vec := f.slot_vec.set index pair.2 }
       if next_slot &&& 7 = 0 then some f'
       else shiftRightLoop n f' (f'.increment_index index) (pair.1 ||| 1)) := rfl

theorem shiftRightLoop_none :
    ∀ (fuel : ℕ) (f : QuotientFilter) (index curr : ℕ),
      3 ≤ f.slot_vec.bit_count → f.slot_vec.bit_count ≤ 64 →
      f.capacity ≤ f.slot_vec.len →
      f.slot_vec.blocks.length
        = BitstringVec.getBlockCount f.slot_vec.bit_count f.slot_vec.len →
      (∀ b ∈ f.slot_vec.blocks, b < U64) →
      index < f.capacity →
      curr < 2 ^ f.slot_vec.bit_count →
      curr &&& 7 ≠ 0 →
      (∀ j, j < f.capacity → f.slot_vec.get j &&& 7 ≠ 0) →
      shiftRightLoop fuel f index curr = none := by
  intro fuel
  induction fuel with
  | zero =>
      intro f index curr _ _ _ _ _ _ _ _ _
      rfl
  | succ n ih =>
      intro f index curr h3 h64 hcaplen hblen hblt hidx hcurr hcurr7 hall
      have hw : 0 < f.slot_vec.bit_count := by omega
      have hfit : index * f.slot_vec.bit_count + f.slot_vec.bit_count
          ≤ 64 * f.slot_vec.blocks.length := by
        rw [hblen]
        exact BitstringVec.fit_of_lt _ _ _ (lt_of_lt_of_le hidx hcaplen)
      have hnext := hall index hidx
      have hnextlt : f.slot_vec.get index < 2 ^ f.slot_vec.bit_count :=
        BitstringVec.get_lt _ h64 hblt index
      have h4lt : (4 : ℕ) < 2 ^ f.slot_vec.bit_count :=
        lt_of_lt_of_le (by norm_num)
          (le_trans (by norm_num : (2:ℕ)^3 ≤ 2^3) (Nat.pow_le_pow_right (by norm_num) h3))
      have h1lt : (1 : ℕ) < 2 ^ f.slot_vec.bit_count :=
        lt_of_lt_of_le (by norm_num)
          (le_trans (by norm_num : (2:ℕ)^3 ≤ 2^3) (Nat.pow_le_pow_right (by norm_num) h3))
      rw [shiftRightLoop_succ]
      dsimp only
      rw [if_neg hnext]
      by_cases hocc : f.slot_vec.get index &&& 4 ≠ 0
      · rw [if_pos hocc]
        dsimp only
        have hWlt : curr ||| 4 < 2 ^ f.slot_vec.bit_count := or_lt_two_pow hcurr h4lt
        refine ih _ _ _ h3 h64 hcaplen ?_ (BitstringVec.set_blocks_lt _ _ _ hblt)
          (increment_index_lt _ _ hidx) ?_ ?_ ?_
        · rw [BitstringVec.set_blocks_length]
          exact hblen
        · exact or_lt_two_pow (lt_of_le_of_lt Nat.and_le_left hnextlt) h1lt
        · rw [Nat.lor_comm]
          exact or_and_mask_ne_zero _ (by decide)
        · intro j hj
          by_cases hji : j = index
          · subst hji
            rw [BitstringVec.get_set_self _ _ _ hw h64 hblt hWlt hfit]
            exact or_and_mask_ne_zero 4 hcurr7
          · rw [BitstringVec.get_set_ne _ _ _ _ hw h64 hblt hWlt hfit hji]
            exact hall j hj
      · rw [if_neg hocc]
        dsimp only
        refine ih _ _ _ h3 h64 hcaplen ?_ (BitstringVec.set_blocks_lt _ _ _ hblt)
          (increment_index_lt _ _ hidx) (or_lt_two_pow hnextlt h1lt) ?_ ?_
        · rw [BitstringVec.set_blocks_length]
          exact hblen
        · rw [Nat.lor_comm]
          exact or_and_mask_ne_zero _ (by decide)
        · intro j hj
          by_cases hji : j = index
          · subst hji
            rw [BitstringVec.get_set_self _ _ _ hw h64 hblt hcurr hfit]
            exact hcurr7
          · rw [BitstringVec.get_set_ne _ _ _ _ hw h64 hblt hcurr hfit hji]
            exact hall j hj

end QuotientFilter

theorem le_foldl_min (b : ℤ) :
    ∀ (xs : List ℤ) (a : ℤ), b ≤ a → (∀ y ∈ xs, b ≤ y) → b ≤ xs.foldl min a := by
  intro xs
  induction xs with
  | nil => intro a ha _; exact ha
  | cons y ys ih =>
      intro a ha hall
      rw [List.foldl_cons]
      exact ih (min a y) (le_min ha (hall y (List.mem_cons_self _ _)))
        (fun z hz => hall z (List.mem_cons_of_mem _ hz))

/-- C9 (counterexample): the claim has no overflow side condition, but the
grid cells are `i64`s and release-mode `+=` wraps around: on the 1-row,
1-column sketch `cmsC9`, three inserts of `2^62` for item `0` (all values
nonnegative, no removals) wrap the single cell to `-2^62`, so
`count 0` underestimates the exact inserted total `3 * 2^62`. -/
theorem countMin_wrap_underestimate :
    (∀ p ∈ cmsOpsC9, (0 : ℤ) ≤ p.2) ∧
      (CountMinSketch.applyInserts cmsC9 cmsOpsC9).count 0 = some (-(2 ^ 62)) ∧
      CountMinSketch.sumFor 0 cmsOpsC9 = 3 * 2 ^ 62 ∧
      (-(2 ^ 62) : ℤ) < 3 * 2 ^ 62 :=
  ⟨by decide, by decide, by decide, by decide⟩

/-- C9 (amended): with at least one row and one column, after any sequence
of `insert(item_j, v_j)` calls with every `v_j ≥ 0`, no removals, and the
exact total `Σ v_j` at most `i64::MAX = 2^63 - 1` (so no `i64` grid cell
ever wraps), `count(x)` under `CountMinStrategy` returns an estimate that
is at least the sum of the values inserted for item `x`; without the
total bound the wrapping cells can underestimate. -/
theorem countMin_no_underestimate {α : Type} [DecidableEq α]
    (rows cols : ℕ) (h0 h1 : α → ℕ) (ops : List (α × ℤ)) (x : α)
    (hr : 0 < rows) (hc : 0 < cols)
    (hnn : ∀ p ∈ ops, 0 ≤ p.2)
    (htot : CountMinSketch.totalOf ops ≤ 2 ^ 63 - 1) :
    ∃ est : ℤ,
      (CountMinSketch.applyInserts
          (CountMinSketch.with_hashers rows cols h0 h1) ops).count x = some est ∧
        CountMinSketch.sumFor x ops ≤ est := by
  have hzero : ∀ i : ℕ,
      (CountMinSketch.with_hashers rows cols h0 h1).grid.getD i 0 = 0 :=
    fun _ => getD_replicate_zero_int
  have hlen0 : (CountMinSketch.with_hashers rows cols h0 h1).grid.length
      = (CountMinSketch.with_hashers rows cols h0 h1).rows
        * (CountMinSketch.with_hashers rows cols h0 h1).cols := by
    simp [CountMinSketch.with_hashers]
  have hrow : ∀ r, r < rows →
      CountMinSketch.sumFor x ops
        ≤ (CountMinSketch.applyInserts
            (CountMinSketch.with_hashers rows cols h0 h1) ops).grid.getD
              (r * cols + HashIter.nth (HashIter.init (h0 x) (h1 x)) r % cols) 0 := by
    intro r hr'
    have hoff : HashIter.nth (HashIter.init (h0 x) (h1 x)) r % cols < cols :=
      Nat.mod_lt _ hc
    have hdm := rowcell_div_mod r
      (HashIter.nth (HashIter.init (h0 x) (h1 x)) r % cols) cols hoff
    have hi : r * cols + HashIter.nth (HashIter.init (h0 x) (h1 x)) r % cols
        < rows * cols := by
      have hmul := Nat.mul_le_mul_right cols (show r + 1 ≤ rows by omega)
      rw [Nat.succ_mul] at hmul
      omega
    obtain ⟨-, hlow⟩ := CountMinSketch.applyInserts_cell_bounds ops
      (CountMinSketch.with_hashers rows cols h0 h1) _ hc hlen0 hi hnn
      (le_of_eq (hzero _).symm) (by rw [hzero, zero_add]; exact htot)
    have hclause : (r * cols + HashIter.nth (HashIter.init (h0 x) (h1 x)) r % cols) % cols
        = HashIter.nth (HashIter.init (h0 x) (h1 x))
            ((r * cols + HashIter.nth (HashIter.init (h0 x) (h1 x)) r % cols) / cols)
          % cols := by
      rw [hdm.1, hdm.2]
    have hkey := hlow x hclause
    rw [hzero, zero_add] at hkey
    exact hkey
  have hFr : (CountMinSketch.applyInserts
      (CountMinSketch.with_hashers rows cols h0 h1) ops).rows = rows :=
    CountMinSketch.applyInserts_rows _ _
  have hFc : (CountMinSketch.applyInserts
      (CountMinSketch.with_hashers rows cols h0 h1) ops).cols = cols :=
    CountMinSketch.applyInserts_cols _ _
  have hF0 : (CountMinSketch.applyInserts
      (CountMinSketch.with_hashers rows cols h0 h1) ops).h0 = h0 :=
    CountMinSketch.applyInserts_h0 _ _
  have hF1 : (CountMinSketch.applyInserts
      (CountMinSketch.with_hashers rows cols h0 h1) ops).h1 = h1 :=
    CountMinSketch.applyInserts_h1 _ _
  have hIVall : ∀ z ∈ (CountMinSketch.applyInserts
      (CountMinSketch.with_hashers rows cols h0 h1) ops).itemValues x,
      CountMinSketch.sumFor x ops ≤ z := by
    intro z hz
    unfold CountMinSketch.itemValues at hz
    rw [List.mem_map] at hz
    obtain ⟨r, hrmem, hzeq⟩ := hz
    rw [List.mem_range, hFr] at hrmem
    rw [← hzeq]
    have hcell : (CountMinSketch.applyInserts
        (CountMinSketch.with_hashers rows cols h0 h1) ops).cell x r
        = r * cols + HashIter.nth (HashIter.init (h0 x) (h1 x)) r % cols := by
      unfold CountMinSketch.cell
      rw [hFc, hF0, hF1]
    rw [hcell]
    exact hrow r hrmem
  have hlenIV : ((CountMinSketch.applyInserts
      (CountMinSketch.with_hashers rows cols h0 h1) ops).itemValues x).length = rows := by
    unfold CountMinSketch.itemValues
    rw [List.length_map, List.length_range, hFr]
  rcases hIV : (CountMinSketch.applyInserts
      (CountMinSketch.with_hashers rows cols h0 h1) ops).itemValues x with _ | ⟨a, xs⟩
  · rw [hIV] at hlenIV
    simp at hlenIV
    omega
  · refine ⟨xs.foldl min a, ?_, ?_⟩
    · unfold CountMinSketch.count
      rw [hIV]
    · exact le_foldl_min _ xs a
        (hIVall a (by rw [hIV]; exact List.mem_cons_self _ _))
        (fun y hy => hIVall y (by rw [hIV]; exact List.mem_cons_of_mem _ hy))

/-- C9 (witness): the amended bound instantiated on a concrete 2-row,
3-column sketch over `ℕ` items with a mixed insert sequence. -/
theorem countMin_no_underestimate_witness :
    ∃ est : ℤ,
      (CountMinSketch.applyInserts
          (CountMinSketch.with_hashers 2 3 (fun n => n) (fun n => n + 1))
          [((0 : ℕ), (5 : ℤ)), (1, 7), (0, 2)]).count 0 = some est ∧
        CountMinSketch.sumFor 0 [((0 : ℕ), (5 : ℤ)), (1, 7), (0, 2)] ≤ est :=
  countMin_no_underestimate 2 3 (fun n => n) (fun n => n + 1)
    [((0 : ℕ), (5 : ℤ)), (1, 7), (0, 2)] 0
    (by decide) (by decide) (by decide) (by decide)

/-- C1: the no-false-negative claim fails for the `QuotientFilter`.  From
the empty `with_hasher 2 1` filter, inserting the items with hashes 7, 6,
5, 4 (all four inserts return normally) yields `qfC1`, which contains
hash 7; the fingerprint of hash 1 differs from that of hash 7 and was
never inserted (`contains` is `false` for it), yet `remove` of hash 1
returns `qfC1r` in which `contains` of hash 7 — inserted and never
removed — is `false`.  Root cause: `remove`, unlike `contains`, never
checks the canonical slot's `is_occupied` bit, so it walks a
nonexistent run and deletes another item's fingerprint. -/
theorem quotientFilter_false_negative :
    QuotientFilter.applyQOps (QuotientFilter.with_hasher 2 1) 80
        [QuotientFilter.QOp.ins 7, QuotientFilter.QOp.ins 6,
          QuotientFilter.QOp.ins 5, QuotientFilter.QOp.ins 4] = some qfC1 ∧
      qfC1.containsHash 7 80 = some true ∧
      qfC1.containsHash 1 80 = some false ∧
      qfC1.get_quotient_and_remainder 1 ≠ qfC1.get_quotient_and_remainder 7 ∧
      qfC1.removeHash 1 80 = some qfC1r ∧
      qfC1r.containsHash 7 80 = some false :=
  ⟨by decide, by decide, by decide, by decide, by decide, by decide⟩

/-- C2: the run/cluster invariant is not preserved.  From the empty
`with_hasher 2 1` filter, the public-API sequence insert 0, insert 1,
insert 2, remove 2, insert 3, insert 5 (every insert returns normally)
yields `qfC2` in which canonical slots 1 and 2 both have `is_occupied`
set, the two-pass cluster walk (`get_run_start`) resolves both to the
same physical run starting at slot 2, and that run's remainders are
1 followed by 1 (slot 3 is its continuation) — not strictly ascending.
Root cause: `remove` leaves the canonical `is_occupied` bit of an
emptied run dangling when its shift-left cascade performs no
iterations, and later inserts build on the corrupt metadata. -/
theorem quotientFilter_run_invariant_broken :
    QuotientFilter.applyQOps (QuotientFilter.with_hasher 2 1) 80
        [QuotientFilter.QOp.ins 0, QuotientFilter.QOp.ins 1,
          QuotientFilter.QOp.ins 2, QuotientFilter.QOp.rem 2,
          QuotientFilter.QOp.ins 3, QuotientFilter.QOp.ins 5] = some qfC2 ∧
      qfC2.slot_vec.get 1 &&& 4 ≠ 0 ∧
      qfC2.slot_vec.get 2 &&& 4 ≠ 0 ∧
      qfC2.get_run_start 80 1 = some (2, 2, 3) ∧
      qfC2.get_run_start 80 2 = some (2, 1, 1) ∧
      qfC2.slot_vec.get 2 >>> 3 = 1 ∧
      qfC2.slot_vec.get 3 &&& 2 ≠ 0 ∧
      qfC2.slot_vec.get 3 >>> 3 = 1 :=
  ⟨by decide, by decide, by decide, by decide, by decide, by decide,
    by decide, by decide⟩

/-- C6: insert neither panics nor returns on a completely full filter.
From the empty `with_hasher 2 1` filter, the sequence insert 0, insert 1,
insert 2, remove 2, remove 2, insert 3, insert 4 yields `qfC6`: all 4
slots are physically occupied (no empty slot exists, the filter is
completely full), yet the `len` field reads 3, so
`assert!(len() < capacity())` passes and the insert of fresh hash 6
(`contains` is `false`) diverges: for every fuel the embedded insert
fails to terminate, because `insert_and_shift_right` scans for an empty
slot that does not exist.  The claim's equation "no empty slot exists,
i.e. `len() == capacity()`" is also broken by `qfC6` itself. -/
theorem quotientFilter_insert_full_hangs :
    QuotientFilter.applyQOps (QuotientFilter.with_hasher 2 1) 80
        [QuotientFilter.QOp.ins 0, QuotientFilter.QOp.ins 1,
          QuotientFilter.QOp.ins 2, QuotientFilter.QOp.rem 2,
          QuotientFilter.QOp.rem 2, QuotientFilter.QOp.ins 3,
          QuotientFilter.QOp.ins 4] = some qfC6 ∧
      qfC6.len = 3 ∧ qfC6.capacity = 4 ∧
      (∀ j, j < 4 → qfC6.slot_vec.get j &&& 7 ≠ 0) ∧
      qfC6.containsHash 6 80 = some false ∧
      ∀ fuel, qfC6.insertHash 6 fuel = none := by
  refine ⟨by decide, by decide, by decide, by decide, by decide, ?_⟩
  intro fuel
  rcases fuel with _ | _ | _ | n
  · rfl
  · decide
  · decide
  · have hstep : qfC6.insertHash 6 (n + 3)
        = (QuotientFilter.shiftRightLoop (n + 3) qfC6loop 0 1).map Sum.inr := rfl
    rw [hstep,
      QuotientFilter.shiftRightLoop_none (n + 3) qfC6loop 0 1 (by decide)
        (by decide) (by decide) (by decide) (by decide) (by decide) (by decide)
        (by decide) (by decide)]
    rfl

end ProbColl
